import Mathlib

/-!
Shallow embedding of the ScaleHLS `AffineStoreForward` pass
(`lib/Transforms/Memory/AffineStoreForward.cpp`) and of the relocation step of
the `AffineLoopPerfection` pass (`lib/Transforms/AffineLoopPerfection.cpp`).

Modelling conventions, chosen once and used throughout:
* Operations are identified by a unique natural-number `uid`; C++ pointer
  equality between operations is embedded as equality of uids.
* SSA values (results, block arguments, induction variables) are natural
  numbers drawn from the same namespace; a memref is a value.
* Blocks are plain lists of operations.  The implicit block terminator
  (`affine.yield` / `func.return`) is NOT represented; consequently the C++
  test `getThenBlock()->getOperations().size() == 2` ("the store plus the
  terminator") becomes `thenOps.length = 1`, and "insert before the block
  terminator" becomes "append at the end of the list".
* All regions of the modelled operation set are single-block regions, as the
  affine dialect guarantees in MLIR; the CFG-successor part of the C++
  traversal in `hasNoInterveningEffect` therefore visits nothing and the
  `todoBlocks` work-list is dropped from the embedding.
* The affine dependence tester `checkMemrefAccessDependence` is an external
  collaborator (MLIR, not part of this repository's sources); the embedding is
  parameterised by a `DepOracle`.
* In the modelled fragment the only operation carrying the `AffineScope` trait
  is the enclosing function itself, so `getAffineScope` is the constant root
  scope and the scope-equality test of the scanner always succeeds.
-/

namespace StoreForward

/-- Value types: scalars and (vector) shapes are only ever compared for
equality by the pass, so a two-point type is a faithful model. -/
inductive Ty where
  | scalar
  | vector
deriving DecidableEq, Repr

/-- Affine index expressions (the fully composed access map applied to its
operands; `var` names an SSA value or induction variable directly). -/
inductive AEx where
  | cst (n : Int)
  | var (v : Nat)
  | add (a b : AEx)
  | sub (a b : AEx)
deriving DecidableEq, Repr

/-- Variables occurring in an affine expression. -/
def AEx.vars : AEx → List Nat
  | .cst _ => []
  | .var v => [v]
  | .add a b => a.vars ++ b.vars
  | .sub a b => a.vars ++ b.vars

/-- An `IntegerSet` together with its operands, in composed form: a list of
affine expressions, each flagged `true` for an equality (`= 0`) constraint and
`false` for an inequality (`>= 0`) constraint. -/
structure CondSet where
  exprs : List (AEx × Bool)
deriving DecidableEq, Repr

def CondSet.vars (c : CondSet) : List Nat :=
  c.exprs.flatMap (fun e => e.1.vars)

/-- The four MLIR memory-effect kinds. -/
inductive EffKind where
  | read
  | write
  | allocate
  | free
deriving DecidableEq, Repr

/-- One `MemoryEffects::EffectInstance`: an effect kind with an optional
affected value. -/
structure EffInst where
  kind : EffKind
  value : Option Nat
deriving DecidableEq, Repr

/-- `mlir::DependenceResult` of `checkMemrefAccessDependence`:
`failure` is the indeterminate outcome. -/
inductive DepResult where
  | noDependence
  | hasDependence
  | failure
deriving DecidableEq, Repr

/-- `mlir::MemRefAccess`: the accessing operation, its memref and its composed
index expressions. -/
structure MemAccess where
  op : Nat
  memref : Nat
  indices : List AEx
deriving DecidableEq, Repr

/-- `MemRefAccess::operator==`: equality of the difference of the two fully
composed access maps, i.e. same memref and syntactically identical composed
index expressions. -/
def accessEq (a b : MemAccess) : Bool :=
  a.memref == b.memref && a.indices == b.indices

/-- The external affine dependence tester,
`checkMemrefAccessDependence (srcAccess, destAccess, depth)`. -/
abbrev DepOracle := MemAccess → MemAccess → Nat → DepResult

/-- The operations of the modelled IR fragment.

* `load`/`store` are `AffineReadOpInterface`/`AffineWriteOpInterface` ops;
* `alloc`/`dealloc` are `memref.alloc`/`memref.dealloc`;
* `konst` is `arith.constant` (a pure op with an empty effect list);
* `select` is `hls::AffineSelectOp` (pure);
* `affineIf`/`affineFor` carry the `HasRecursiveSideEffects` trait and no
  memory-effect interface; `affineFor` is modelled with constant bounds and
  unit step;
* `effOp` is a generic operation implementing `MemoryEffectOpInterface` with
  the given effect instances;
* `unknownOp` is an operation with neither the interface nor the trait. -/
inductive Op where
  | load (uid res mem : Nat) (idx : List AEx) (ty : Ty)
  | store (uid val mem : Nat) (idx : List AEx)
  | alloc (uid mem : Nat)
  | dealloc (uid mem : Nat)
  | konst (uid res : Nat) (n : Int) (ty : Ty)
  | select (uid res : Nat) (cond : CondSet) (tv fv : Nat) (ty : Ty)
  | affineIf (uid : Nat) (cond : CondSet) (thenOps elseOps : List Op)
      (hasElse : Bool)
  | affineFor (uid iv : Nat) (lb ub : Int) (body : List Op)
  | effOp (uid : Nat) (effs : List EffInst)
  | unknownOp (uid : Nat)

/-- A function body: memref-typed block arguments and a single block. -/
structure Func where
  args : List Nat
  body : List Op

def Op.uid : Op → Nat
  | .load u .. => u
  | .store u .. => u
  | .alloc u _ => u
  | .dealloc u _ => u
  | .konst u .. => u
  | .select u .. => u
  | .affineIf u .. => u
  | .affineFor u .. => u
  | .effOp u _ => u
  | .unknownOp u => u

/-- Results (produced SSA values) of an operation. -/
def Op.results : Op → List Nat
  | .load _ r .. => [r]
  | .alloc _ m => [m]
  | .konst _ r _ _ => [r]
  | .select _ r .. => [r]
  | _ => []

/-- Operands (used SSA values) of an operation.  For an `affine.store` the
stored value is operand 0, then the memref, then the map operands, as in
MLIR. -/
def Op.operands : Op → List Nat
  | .load _ _ m idx _ => m :: idx.flatMap AEx.vars
  | .store _ v m idx => v :: m :: idx.flatMap AEx.vars
  | .alloc _ _ => []
  | .dealloc _ m => [m]
  | .konst .. => []
  | .select _ _ c tv fv _ => c.vars ++ [tv, fv]
  | .affineIf _ c _ _ _ => c.vars
  | .affineFor .. => []
  | .effOp _ effs => effs.filterMap (·.value)
  | .unknownOp _ => []

/-- `dyn_cast<MemoryEffectOpInterface>` plus `getEffects`: `none` when the
operation does not implement the interface. -/
def Op.getEffects : Op → Option (List EffInst)
  | .load _ _ m _ _ => some [⟨.read, some m⟩]
  | .store _ _ m _ => some [⟨.write, some m⟩]
  | .alloc _ m => some [⟨.allocate, some m⟩]
  | .dealloc _ m => some [⟨.free, some m⟩]
  | .konst .. => some []
  | .select .. => some []
  | .affineIf .. => none
  | .affineFor .. => none
  | .effOp _ effs => some effs
  | .unknownOp _ => none

/-- `op->hasTrait<OpTrait::HasRecursiveSideEffects>()`. -/
def Op.hasRecursiveSideEffects : Op → Bool
  | .affineIf .. => true
  | .affineFor .. => true
  | _ => false

/-- `isa<AffineReadOpInterface, AffineWriteOpInterface>(op)`. -/
def Op.isAffineReadOrWrite : Op → Bool
  | .load .. => true
  | .store .. => true
  | _ => false

/-- `MemRefAccess(op)` for an affine read or write. -/
def Op.accessOf : Op → Option MemAccess
  | .load u _ m idx _ => some ⟨u, m, idx⟩
  | .store u _ m idx => some ⟨u, m, idx⟩
  | _ => none

def Op.isStore : Op → Bool
  | .store .. => true
  | _ => false

def Op.isLoad : Op → Bool
  | .load .. => true
  | _ => false

def Op.isFor : Op → Bool
  | .affineFor .. => true
  | _ => false

/-! ## Locating operations in the region tree -/

/-- The position of an operation inside a function body: the chain of
enclosing operations (uid and region index, outermost first — so the chain is
also the identity of the containing region), the operation list of the
containing block, and the index within it. -/
structure Ctx where
  ancestors : List (Nat × Nat)
  block : List Op
  idx : Nat

mutual

/-- Scan `rest` (a suffix of `block` starting at index `i`) and the regions of
its operations for the operation with the given uid. -/
def findCtxScan (block rest : List Op) (i : Nat) (anc : List (Nat × Nat))
    (uid : Nat) : Option Ctx :=
  match rest with
  | [] => none
  | o :: os =>
    if o.uid = uid then some ⟨anc, block, i⟩
    else
      match findCtxInOp o anc uid with
      | some c => some c
      | none => findCtxScan block os (i + 1) anc uid

/-- Search the regions nested inside `o`. -/
def findCtxInOp (o : Op) (anc : List (Nat × Nat)) (uid : Nat) : Option Ctx :=
  match o with
  | .affineIf u _ t e he =>
    (match findCtxScan t t 0 (anc ++ [(u, 0)]) uid with
     | some c => some c
     | none => if he then findCtxScan e e 0 (anc ++ [(u, 1)]) uid else none)
  | .affineFor u _ _ _ b => findCtxScan b b 0 (anc ++ [(u, 0)]) uid
  | _ => none

end

def ctx? (f : Func) (uid : Nat) : Option Ctx :=
  findCtxScan f.body f.body 0 [] uid

mutual

/-- Find the operation (with its whole subtree) carrying the given uid. -/
def getOpIn : List Op → Nat → Option Op
  | [], _ => none
  | o :: os, uid =>
    if o.uid = uid then some o
    else
      match getOpNested o uid with
      | some r => some r
      | none => getOpIn os uid

def getOpNested : Op → Nat → Option Op
  | .affineIf _ _ t e he, uid =>
    (match getOpIn t uid with
     | some r => some r
     | none => if he then getOpIn e uid else none)
  | .affineFor _ _ _ _ b, uid => getOpIn b uid
  | _, _ => none

end

def getOp? (f : Func) (uid : Nat) : Option Op :=
  getOpIn f.body uid

mutual

/-- All operations, recursively, in pre-order. -/
def allOps : List Op → List Op
  | [] => []
  | o :: os => o :: (allOpsNested o ++ allOps os)

def allOpsNested : Op → List Op
  | .affineIf _ _ t e he => allOps t ++ (if he then allOps e else [])
  | .affineFor _ _ _ _ b => allOps b
  | _ => []

end

mutual

/-- All operations, recursively, in post-order — the order of `Operation::walk`
in MLIR (regions first, then the operation itself). -/
def walkPost : List Op → List Op
  | [] => []
  | o :: os => walkPostOp o ++ walkPost os

def walkPostOp : Op → List Op
  | .affineIf u c t e he =>
    walkPost t ++ (if he then walkPost e else []) ++ [.affineIf u c t e he]
  | .affineFor u iv lb ub b => walkPost b ++ [.affineFor u iv lb ub b]
  | o => [o]

end

/-- `Value::getUsers()`: the uids of all operations using `v` as an operand,
in program (pre-)order — the embedding's deterministic rendering of the
use-list. -/
def usersOf (f : Func) (v : Nat) : List Nat :=
  ((allOps f.body).filter (fun o => o.operands.contains v)).map Op.uid

/-- `Value::getDefiningOp()`: `none` for block arguments and unknown values. -/
def definingOp? (f : Func) (v : Nat) : Option Op :=
  (allOps f.body).find? (fun o => o.results.contains v)

/-- The type of an SSA value, read off its defining operation. -/
def typeOf (f : Func) (v : Nat) : Option Ty :=
  match definingOp? f v with
  | some (.load _ _ _ _ ty) => some ty
  | some (.konst _ _ _ ty) => some ty
  | some (.select _ _ _ _ _ ty) => some ty
  | _ => none

/-- `mlir::hasSingleEffect<Effect>(op, value)`: the operation's effect list is
exactly one instance of the given kind on the given value. -/
def hasSingleEffect (k : EffKind) (op : Op) (v : Nat) : Bool :=
  op.getEffects == some [⟨k, some v⟩]

/-- The `isLocallyAllocated` lambda of `hasNoInterveningEffect`: the memref has
a defining op with a single `Allocate` effect on it. -/
def isLocallyAllocated (f : Func) (memref : Nat) : Bool :=
  match definingOp? f memref with
  | some defOp => hasSingleEffect .allocate defOp memref
  | none => false

/-! ## Surrounding loops, dominance, post-dominance -/

/-- The enclosing `affine.for` operations of an operation, outermost first. -/
def surroundingLoops (f : Func) (uid : Nat) : List Nat :=
  match ctx? f uid with
  | some c =>
    (c.ancestors.filter (fun p =>
      match getOp? f p.1 with
      | some o => o.isFor
      | none => false)).map (·.1)
  | none => []

def commonPrefixLen : List Nat → List Nat → Nat
  | a :: as, b :: bs => if a = b then commonPrefixLen as bs + 1 else 0
  | _, _ => 0

/-- `mlir::getNumCommonSurroundingLoops`. -/
def numCommonSurroundingLoops (f : Func) (a b : Nat) : Nat :=
  commonPrefixLen (surroundingLoops f a) (surroundingLoops f b)

/-- Region `ra` is an ancestor (or the same) region of `rb`
(`Region::isAncestor`), on region identities. -/
def pathIsAncestor (ra rb : List (Nat × Nat)) : Bool :=
  rb.take ra.length == ra

/-- `DominanceInfo::properlyDominates(Operation*, Operation*)` on the modelled
single-block structured fragment: normalize `b` to its ancestor in `a`'s
region; an enclosing operation properly dominates its contents; within one
block, block order decides. -/
def properlyDominates (f : Func) (a b : Nat) : Bool :=
  match ctx? f a, ctx? f b with
  | some ca, some cb =>
    if a = b then false
    else if ca.ancestors == cb.ancestors then ca.idx < cb.idx
    else if pathIsAncestor ca.ancestors cb.ancestors then
      match cb.ancestors[ca.ancestors.length]? with
      | some (ancUid, _) =>
        if ancUid = a then true
        else
          match ctx? f ancUid with
          | some cb' => ca.idx < cb'.idx
          | none => false
      | none => false
    else false
  | _, _ => false

/-- `DominanceInfo::dominates(Operation*, Operation*)`. -/
def dominates (f : Func) (a b : Nat) : Bool :=
  a == b || properlyDominates f a b

/-- `PostDominanceInfo::properlyPostDominates`, mirrored from dominance. -/
def properlyPostDominates (f : Func) (a b : Nat) : Bool :=
  match ctx? f a, ctx? f b with
  | some ca, some cb =>
    if a = b then false
    else if ca.ancestors == cb.ancestors then cb.idx < ca.idx
    else if pathIsAncestor ca.ancestors cb.ancestors then
      match cb.ancestors[ca.ancestors.length]? with
      | some (ancUid, _) =>
        if ancUid = a then true
        else
          match ctx? f ancUid with
          | some cb' => cb'.idx < ca.idx
          | none => false
      | none => false
    else false
  | _, _ => false

/-- `PostDominanceInfo::postDominates(a, b)`: does `a` post-dominate `b`. -/
def postDominates (f : Func) (a b : Nat) : Bool :=
  a == b || properlyPostDominates f a b

/-! ## The interference scanner `hasNoInterveningEffect` -/

/-- Operations of the modelled fragment carrying the `AffineScope` trait:
none — the enclosing `func.func` (which does carry the trait in MLIR) is the
implicit root scope. -/
def Op.hasAffineScopeTrait : Op → Bool := fun _ => false

/-- Whether the ancestor entry names an operation with the `AffineScope`
trait. -/
def scopeAnc (f : Func) (p : Nat × Nat) : Bool :=
  match getOp? f p.1 with
  | some o => o.hasAffineScopeTrait
  | none => false

/-- `mlir::getAffineScope`: the closest surrounding operation with the
`AffineScope` trait; `none` stands for the function itself. -/
def getAffineScope (f : Func) (uid : Nat) : Option Nat :=
  match ctx? f uid with
  | some c => (c.ancestors.reverse.find? (scopeAnc f)).map (·.1)
  | none => none

/-- The matching-kind effect-instance skip of `checkOperation`: the effect has
a value distinct from the target memref and both are locally allocated
(the narrow non-aliasing heuristic). -/
def effectSkipped (f : Func) (memref : Nat) (e : EffInst) : Bool :=
  match e.value with
  | some v => v != memref && isLocallyAllocated f memref && isLocallyAllocated f v
  | none => false

/-- The `opMayHaveEffect` accumulation of `checkOperation`: some effect
instance matches the queried kind and is not skipped. -/
def opMayHaveEffectB (f : Func) (kind : EffKind) (memref : Nat)
    (effects : List EffInst) : Bool :=
  effects.any fun e => e.kind == kind && !effectSkipped f memref e

/-- The affine-dependence loop of `checkOperation`:
`for (d = nsLoops + 1; d > minSurroundingLoops; d--)` with any
non-NoDependence result (a found dependence or an indeterminate result)
reporting a side effect. -/
def affineDepCheck (dep : DepOracle) (f : Func) (startUid memOpUid opUid : Nat)
    (srcAccess destAccess : MemAccess) : Bool :=
  let minSurroundingLoops := numCommonSurroundingLoops f startUid memOpUid
  let nsLoops := numCommonSurroundingLoops f opUid memOpUid
  (List.range (nsLoops + 1 - minSurroundingLoops)).any fun k =>
    !(dep srcAccess destAccess (nsLoops + 1 - k) == .noDependence)

/-- The body of `checkOperation` for an operation implementing
`MemoryEffectOpInterface`: the effect filter, the affine-access narrowing
with its unconditional different-memref bailout, the same-scope dependence
test, and the conservative `hasSideEffect = true` for everything else.  The
`none` case is unreachable: only operations with an effect list are routed
here. -/
def checkOperationLeaf (dep : DepOracle) (f : Func) (kind : EffKind)
    (startUid : Nat) (memOp : Op) (memref : Nat) (op : Op) : Bool :=
  match op.getEffects with
  | some effects =>
    if !opMayHaveEffectB f kind memref effects then false
    else if op.isAffineReadOrWrite then
      match op.accessOf, memOp.accessOf with
      | some srcAccess, some destAccess =>
        if srcAccess.memref != destAccess.memref then false
        else if getAffineScope f op.uid == getAffineScope f memOp.uid &&
            getAffineScope f op.uid == getAffineScope f startUid then
          affineDepCheck dep f startUid memOp.uid op.uid srcAccess destAccess
        else true
      | _, _ => true
    else true
  | none => true

mutual

/-- The `checkOperation` closure of `hasNoInterveningEffect`: `true` iff
visiting `op` sets `hasSideEffect`.  `startUid`/`memOp` are the endpoints of
the query, `memref` is `memOp`'s memref, `kind` the queried `EffectType`.
The dispatch mirrors the C++: operations implementing
`MemoryEffectOpInterface` (every constructor except `affineIf`, `affineFor`
and `unknownOp`) go through the effect filter; operations carrying
`HasRecursiveSideEffects` (`affineIf`, `affineFor`) have their regions
recursed into; an operation with neither (`unknownOp`) conservatively has the
effect. -/
def checkOperation (dep : DepOracle) (f : Func) (kind : EffKind)
    (startUid : Nat) (memOp : Op) (memref : Nat) : Op → Bool
  | .affineIf _ _ t e he =>
    checkOps dep f kind startUid memOp memref t ||
      (he && checkOps dep f kind startUid memOp memref e)
  | .affineFor _ _ _ _ b => checkOps dep f kind startUid memOp memref b
  | .unknownOp _ => true
  | op => checkOperationLeaf dep f kind startUid memOp memref op

/-- `checkOperation` over every operation of a block. -/
def checkOps (dep : DepOracle) (f : Func) (kind : EffKind) (startUid : Nat)
    (memOp : Op) (memref : Nat) : List Op → Bool
  | [] => false
  | o :: os =>
    checkOperation dep f kind startUid memOp memref o ||
      checkOps dep f kind startUid memOp memref os

end

/-- `hasNoInterveningEffect<EffectType>(start, memOp)`.

The result is `none` when the precondition of the C++ helper `recur` (its
assert that `from`'s region is an ancestor of `untilOp`'s region) fails — the
C++ behaviour is undefined there, and no in-tree caller reaches it.

Otherwise the recursion of `recur`/`until` is unrolled along the chain
`a1, ..., ak` of ancestors of `memOp` lying strictly below `start`'s region:
the scan visits the operations strictly after `start` in its block up to (the
ancestor of) `memOp`, and additionally `checkOperation` is applied to every
`ai` whole (the conservative whole-ancestor re-scan noted in the source). -/
def hasNoInterveningEffect (dep : DepOracle) (f : Func) (kind : EffKind)
    (startUid memOpUid : Nat) : Option Bool :=
  match getOp? f memOpUid, ctx? f startUid, ctx? f memOpUid with
  | some memOp, some cs, some cm =>
    match memOp.accessOf with
    | some acc =>
      let memref := acc.memref
      if cs.ancestors == cm.ancestors then
        let between :=
          (cs.block.drop (cs.idx + 1)).takeWhile (fun o => o.uid != memOpUid)
        some (!checkOps dep f kind startUid memOp memref between)
      else if pathIsAncestor cs.ancestors cm.ancestors then
        match cm.ancestors.drop cs.ancestors.length with
        | [] => none
        | (a1, _) :: rest =>
          let between :=
            (cs.block.drop (cs.idx + 1)).takeWhile (fun o => o.uid != a1)
          let parentsHit := ((a1, 0) :: rest).any fun p =>
            match getOp? f p.1 with
            | some po => checkOperation dep f kind startUid memOp memref po
            | none => true
          some (!(checkOps dep f kind startUid memOp memref between || parentsHit))
      else none
    | none => none
  | _, _, _ => none

/-! ## IR mutation primitives -/

/-- Substitution of one SSA value for another in an affine expression
(the embedding of use-replacement inside composed access maps). -/
def AEx.subst (old new : Nat) : AEx → AEx
  | .cst n => .cst n
  | .var v => if v = old then .var new else .var v
  | .add a b => .add (a.subst old new) (b.subst old new)
  | .sub a b => .sub (a.subst old new) (b.subst old new)

def CondSet.subst (old new : Nat) (c : CondSet) : CondSet :=
  ⟨c.exprs.map (fun e => (e.1.subst old new, e.2))⟩

def substV (old new v : Nat) : Nat := if v = old then new else v

mutual

/-- `Value::replaceAllUsesWith`: rewrite every operand occurrence of `old`
to `new`; results are definitions, not uses, and stay untouched. -/
def Op.substUses (old new : Nat) : Op → Op
  | .load u r m idx ty =>
    .load u r (substV old new m) (idx.map (AEx.subst old new)) ty
  | .store u v m idx =>
    .store u (substV old new v) (substV old new m) (idx.map (AEx.subst old new))
  | .alloc u m => .alloc u m
  | .dealloc u m => .dealloc u (substV old new m)
  | .konst u r n ty => .konst u r n ty
  | .select u r c tv fv ty =>
    .select u r (c.subst old new) (substV old new tv) (substV old new fv) ty
  | .affineIf u c t e he =>
    .affineIf u (c.subst old new) (substUsesIn old new t) (substUsesIn old new e) he
  | .affineFor u iv lb ub b => .affineFor u iv lb ub (substUsesIn old new b)
  | .effOp u effs => .effOp u (effs.map fun e => ⟨e.kind, e.value.map (substV old new)⟩)
  | .unknownOp u => .unknownOp u

def substUsesIn (old new : Nat) : List Op → List Op
  | [] => []
  | o :: os => o.substUses old new :: substUsesIn old new os

end

def replaceAllUses (f : Func) (old new : Nat) : Func :=
  ⟨f.args, substUsesIn old new f.body⟩

mutual

/-- `Operation::erase`: remove the operation (with its nested regions)
from wherever it sits. -/
def eraseIn (uid : Nat) : List Op → List Op
  | [] => []
  | o :: os => if o.uid = uid then os else eraseNested uid o :: eraseIn uid os

def eraseNested (uid : Nat) : Op → Op
  | .affineIf u c t e he => .affineIf u c (eraseIn uid t) (eraseIn uid e) he
  | .affineFor u iv lb ub b => .affineFor u iv lb ub (eraseIn uid b)
  | o => o

end

def eraseOp (f : Func) (uid : Nat) : Func := ⟨f.args, eraseIn uid f.body⟩

mutual

/-- Replace the operation with the given uid by a list of operations at the
same position (used for the hoist rewrite of the conditional-store case). -/
def replaceIn (uid : Nat) (repl : List Op) : List Op → List Op
  | [] => []
  | o :: os =>
    if o.uid = uid then repl ++ os
    else replaceNested uid repl o :: replaceIn uid repl os

def replaceNested (uid : Nat) (repl : List Op) : Op → Op
  | .affineIf u c t e he => .affineIf u c (replaceIn uid repl t) (replaceIn uid repl e) he
  | .affineFor u iv lb ub b => .affineFor u iv lb ub (replaceIn uid repl b)
  | o => o

end

def replaceOpWithList (f : Func) (uid : Nat) (repl : List Op) : Func :=
  ⟨f.args, replaceIn uid repl f.body⟩

/-- `Operation::getParentOp` (within the function body). -/
def parentOp? (f : Func) (uid : Nat) : Option Op :=
  match ctx? f uid with
  | some c =>
    match c.ancestors.getLast? with
    | some (pu, _) => getOp? f pu
    | none => none
  | none => none

/-- `getParentOfType<AffineIfOp>`: the closest enclosing `affine.if`. -/
def parentIfUid? (f : Func) (uid : Nat) : Option Nat :=
  match ctx? f uid with
  | some c =>
    (c.ancestors.reverse.find? (fun p =>
      match getOp? f p.1 with
      | some (.affineIf ..) => true
      | _ => false)).map (·.1)
  | none => none

/-! ## Store-to-load forwarding (`forwardStoreToLoad`) -/

/-- Step 2 of `forwardStoreToLoad`: the effective start operation for the
dominance and interference checks — the enclosing `affine.if` when the store
is the sole operation of a single-branch conditional whose parent region is an
ancestor of the load's region, the store itself otherwise.
(`getThenBlock()->getOperations().size() == 2` counts the implicit
terminator, hence `thenOps.length == 1` here.) -/
def effectiveStart (f : Func) (storeUid loadUid : Nat) : Nat :=
  match parentOp? f storeUid with
  | some (.affineIf u _ thenOps _ he) =>
    (match ctx? f u, ctx? f loadUid with
     | some ci, some cl =>
       if !he && thenOps.length == 1 && pathIsAncestor ci.ancestors cl.ancestors
       then u else storeUid
     | _, _ => storeUid)
  | _ => storeUid

/-- The candidate filter of `forwardStoreToLoad`: the user is an affine store
whose access equals the load's access, whose effective start dominates the
load, and with no intervening write effect between the start and the load. -/
def fwdCandidateCond (dep : DepOracle) (f : Func) (loadOp : Op)
    (userUid : Nat) : Bool :=
  match getOp? f userUid with
  | some sop@(.store ..) =>
    (match sop.accessOf, loadOp.accessOf with
     | some srcAccess, some destAccess =>
       accessEq srcAccess destAccess &&
       (let startUid := effectiveStart f userUid loadOp.uid
        dominates f startUid loadOp.uid &&
        hasNoInterveningEffect dep f .write startUid loadOp.uid == some true)
     | _, _ => false)
  | _ => false

/-- The forwarding candidates of a load, in user-list order.  The assertion
`multiple simulataneous replacement stores` of the source is the statement
that this list never has more than one element. -/
def fwdCands (dep : DepOracle) (f : Func) (loadOp : Op) : List Nat :=
  match loadOp with
  | .load _ _ mem _ _ => (usersOf f mem).filter (fwdCandidateCond dep f loadOp)
  | _ => []

/-- `SmallPtrSet::insert` on the deferred lists, rendered as an
insertion-ordered duplicate-free list. -/
def insertMem (l : List Nat) (m : Nat) : List Nat :=
  if l.contains m then l else l ++ [m]

structure FwdResult where
  func : Func
  /-- the returned `AffineReadOpInterface`; `none` embeds the null return. -/
  ret : Option Nat
  loadOpsToErase : List Nat
  memrefsToErase : List Nat
  fresh : Nat

/-- `forwardStoreToLoad(loadOp, loadOpsToErase, memrefsToErase, domInfo)`.

`fresh` is the supply of uids/value ids for the operations created by the
hoist rewrite (`builder.clone` and `builder.create` allocate fresh ids in
MLIR).  With assertions disabled the C++ keeps the last candidate assigned to
`lastWriteStoreOp`, hence `getLast?`.

In the hoist branch the conditional's then-block holds nothing but the store
(that is what made the conditional the effective start), so moving the store
out, erasing the conditional and inserting the cloned load plus the select in
front of it amounts to replacing the conditional in its block by
`[newLoad, select, store]`, with the store's value operand (operand 0 of an
affine store) redirected to the select's result. -/
def forwardStoreToLoad (dep : DepOracle) (f : Func) (loadUid : Nat)
    (loadErase memErase : List Nat) (fresh : Nat) : FwdResult :=
  match getOp? f loadUid with
  | some loadOp@(.load _ res mem idx ty) =>
    let cands := fwdCands dep f loadOp
    match cands.getLast? with
    | none => ⟨f, some loadUid, loadErase, memErase, fresh⟩
    | some sUid =>
      match getOp? f sUid with
      | some (.store _ storeVal smem sidx) =>
        if typeOf f storeVal != some ty then
          ⟨f, some loadUid, loadErase, memErase, fresh⟩
        else if !dominates f sUid loadUid then
          match parentIfUid? f sUid with
          | some ifUid =>
            (match getOp? f ifUid with
             | some (.affineIf _ ifCond _ _ _) =>
               let newLoad : Op := .load fresh (fresh + 1) mem idx ty
               let selOp : Op := .select (fresh + 2) (fresh + 3) ifCond storeVal (fresh + 1) ty
               let movedStore : Op := .store sUid (fresh + 3) smem sidx
               let f1 := replaceOpWithList f ifUid [newLoad, selOp, movedStore]
               let f2 := replaceAllUses f1 res (fresh + 3)
               ⟨f2, some fresh, loadErase ++ [loadUid], memErase, fresh + 4⟩
             | _ => ⟨f, some loadUid, loadErase, memErase, fresh⟩)
          | none => ⟨f, some loadUid, loadErase, memErase, fresh⟩
        else
          ⟨replaceAllUses f res storeVal, none, loadErase ++ [loadUid],
            insertMem memErase mem, fresh⟩
      | _ => ⟨f, some loadUid, loadErase, memErase, fresh⟩
  | _ => ⟨f, some loadUid, loadErase, memErase, fresh⟩

/-! ## Redundant-load elimination (`loadCSE`) -/

/-- The candidate filter of `loadCSE`: another load of the same access that
dominates `loadA`, with no intervening write and an identical result type. -/
def loadCSECond (dep : DepOracle) (f : Func) (loadA : Op) (userUid : Nat) : Bool :=
  match getOp? f userUid with
  | some lb@(.load _ _ _ _ bty) =>
    userUid != loadA.uid &&
    (match lb.accessOf, loadA.accessOf with
     | some src, some dst => accessEq src dst
     | _, _ => false) &&
    dominates f userUid loadA.uid &&
    hasNoInterveningEffect dep f .write userUid loadA.uid == some true &&
    (match loadA with
     | .load _ _ _ _ aty => bty == aty
     | _ => false)
  | _ => false

/-- The `llvm::all_of` lambda of `loadCSE`'s candidate selection: `option`
dominates every other candidate. -/
def cseDominatesAll (f : Func) (cands : List Nat) (option : Nat) : Bool :=
  cands.all fun depStore => depStore == option || dominates f option depStore

/-- The value of a load op. -/
def loadValue? (f : Func) (uid : Nat) : Option Nat :=
  match getOp? f uid with
  | some (.load _ r _ _ _) => some r
  | _ => none

/-- `loadCSE(loadA, loadOpsToErase, domInfo)`: among the candidates, use the
one that dominates all others; if none does, leave the load alone. -/
def loadCSE (dep : DepOracle) (f : Func) (loadAUid : Nat)
    (loadErase : List Nat) : Func × List Nat :=
  match getOp? f loadAUid with
  | some loadA@(.load _ ares amem _ _) =>
    let loadCandidates := (usersOf f amem).filter (loadCSECond dep f loadA)
    let chosen := loadCandidates.find? (cseDominatesAll f loadCandidates)
    (match chosen with
     | some bUid =>
       (match loadValue? f bUid with
        | some bres => (replaceAllUses f ares bres, loadErase ++ [loadAUid])
        | none => (f, loadErase))
     | none => (f, loadErase))
  | _ => (f, loadErase)

/-! ## Dead-store elimination (`findUnusedStore`) -/

/-- Modelled from the spec: `checkSameIfStatement` (scalehls `Support/Utils`,
not under `src/`) — the spec requires "the two conditionals — if both A and B
are so enclosed — to be recognizably 'the same' conditional instance"; two
conditionals are recognizably the same when they test the same composed
condition set. -/
def checkSameIfStatement (a b : Op) : Bool :=
  match a, b with
  | .affineIf _ ca _ _ _, .affineIf _ cb _ _ _ => ca == cb
  | _, _ => false

/-- The effective post-dominance targets of `findUnusedStore`: `writeA` is
replaced by its enclosing single-branch conditional when it is the sole
operation inside it and the conditional's parent region is an ancestor of
`writeB`'s region; when `writeA`'s parent is a conditional, `writeB` is
replaced by its own enclosing conditional if that one is recognizably the same
conditional. -/
def dseTargets (f : Func) (writeAUid writeBUid : Nat) : Nat × Nat :=
  match parentOp? f writeAUid with
  | some ifA@(.affineIf ua _ thenOps _ he) =>
    let targetA :=
      if !he && thenOps.length == 1 &&
          (match ctx? f ua, ctx? f writeBUid with
           | some ci, some cb => pathIsAncestor ci.ancestors cb.ancestors
           | _, _ => false)
      then ua else writeAUid
    let targetB :=
      match parentOp? f writeBUid with
      | some ifB@(.affineIf ub _ _ _ _) =>
        if checkSameIfStatement ifA ifB then ub else writeBUid
      | _ => writeBUid
    (targetA, targetB)
  | _ => (writeAUid, writeBUid)

/-- The region identity of an operation. -/
def regionPathOf (f : Func) (uid : Nat) : Option (List (Nat × Nat)) :=
  (ctx? f uid).map (·.ancestors)

/-- The overwriting-candidate filter of `findUnusedStore`: a distinct store of
the same access whose effective target shares `targetA`'s region,
post-dominates it, and with no read effect between `targetA` and `writeB`. -/
def dseCond (dep : DepOracle) (f : Func) (writeA : Op) (userUid : Nat) : Bool :=
  match getOp? f userUid with
  | some wb@(.store ..) =>
    userUid != writeA.uid &&
    (match wb.accessOf, writeA.accessOf with
     | some src, some dst => accessEq src dst
     | _, _ => false) &&
    (let t := dseTargets f writeA.uid userUid
     regionPathOf f t.1 == regionPathOf f t.2 &&
     postDominates f t.2 t.1 &&
     hasNoInterveningEffect dep f .read t.1 userUid == some true)
  | _ => false

/-- `findUnusedStore(writeA, opsToErase, memrefsToErase, postDominanceInfo)`:
schedule `writeA`'s effective target for erasure at the first overwriting
candidate (and stop searching); afterwards record the memref for the
dead-buffer sweep when every user is a store or a deallocation. -/
def findUnusedStore (dep : DepOracle) (f : Func) (writeAUid : Nat)
    (opsToErase memrefsToErase : List Nat) : List Nat × List Nat :=
  match getOp? f writeAUid with
  | some writeA@(.store _ _ memref _) =>
    let found := (usersOf f memref).find? (dseCond dep f writeA)
    let opsToErase' :=
      match found with
      | some bUid => opsToErase ++ [(dseTargets f writeAUid bUid).1]
      | none => opsToErase
    let memrefsToErase' :=
      if (usersOf f memref).all (fun u =>
          match getOp? f u with
          | some o => o.isStore || hasSingleEffect .free o memref
          | none => false)
      then insertMem memrefsToErase memref
      else memrefsToErase
    (opsToErase', memrefsToErase')
  | _ => (opsToErase, memrefsToErase)

/-! ## The pass driver (`applyAffineStoreForward`) -/

def opCount (f : Func) : Nat := (allOps f.body).length

/-- The `while (1)` fixpoint of the driver's first walk: keep forwarding until
the load is consumed (`ret = none`) or no further forwarding applies; then run
`loadCSE` on the survivor.  Each iteration that does not exit erases one
conditional from the function, so the source loop terminates; the fuel the
driver supplies (operation count + 1) therefore never runs out. -/
def fwdFix (dep : DepOracle) : Nat → Func → Nat → List Nat → List Nat → Nat →
    Func × List Nat × List Nat × Nat
  | 0, f, _, loadErase, memErase, fresh => (f, loadErase, memErase, fresh)
  | fuel + 1, f, cur, loadErase, memErase, fresh =>
    let r := forwardStoreToLoad dep f cur loadErase memErase fresh
    match r.ret with
    | none => (r.func, r.loadOpsToErase, r.memrefsToErase, r.fresh)
    | some nu =>
      if nu = cur then
        let cse := loadCSE dep r.func nu r.loadOpsToErase
        (cse.1, cse.2, r.memrefsToErase, r.fresh)
      else fwdFix dep fuel r.func nu r.loadOpsToErase r.memrefsToErase r.fresh

/-- `applyAffineStoreForward(func)`: forwarding + load CSE over every load,
erasure of the consumed loads, dead-store elimination over every store,
erasure of the dead stores, and the final dead-buffer sweep.  `fresh` seeds
the id supply for operations created by the hoist rewrite. -/
def applyAffineStoreForward (dep : DepOracle) (f : Func) (fresh : Nat) : Func :=
  let loadUids := ((walkPost f.body).filter Op.isLoad).map Op.uid
  let st1 := loadUids.foldl
    (fun (st : Func × List Nat × List Nat × Nat) u =>
      fwdFix dep (opCount st.1 + 1) st.1 u st.2.1 st.2.2.1 st.2.2.2)
    (f, [], [], fresh)
  let f1 := st1.1
  let memErase1 := st1.2.2.1
  let f2 := st1.2.1.foldl eraseOp f1
  let storeUids := ((walkPost f2.body).filter Op.isStore).map Op.uid
  let st2 := storeUids.foldl
    (fun (p : List Nat × List Nat) u => findUnusedStore dep f2 u p.1 p.2)
    ([], memErase1)
  let f3 := st2.1.foldl eraseOp f2
  st2.2.foldl
    (fun f m =>
      match definingOp? f m with
      | some defOp =>
        if hasSingleEffect .allocate defOp m then
          if (usersOf f m).all (fun u =>
              match getOp? f u with
              | some o => o.isStore || hasSingleEffect .free o m
              | none => false)
          then eraseOp ((usersOf f m).foldl eraseOp f) defOp.uid
          else f
        else f
      | none => f)
    f3

/-! ## An interpreter for the modelled fragment

Gives the observable behaviour used by the soundness claim: the final
contents of memory.  A memref environment maps memref SSA values to buffers;
locally allocated buffers are always fresh, while the binding of
block-argument memrefs is chosen by the caller — in MLIR nothing prevents a
caller from passing the same buffer for two memref arguments. -/

structure St where
  vals : List (Nat × Int)
  mrefs : List (Nat × Nat)
  heap : List ((Nat × List Int) × Int)
  nextBuf : Nat

def setVal (st : St) (v : Nat) (n : Int) : St :=
  { st with vals := (v, n) :: st.vals }

def evalA (st : St) : AEx → Option Int
  | .cst n => some n
  | .var v => st.vals.lookup v
  | .add a b => do return (← evalA st a) + (← evalA st b)
  | .sub a b => do return (← evalA st a) - (← evalA st b)

/-- One constraint list of an `IntegerSet`: every equality constraint must
evaluate to zero and every inequality constraint to a non-negative value. -/
def evalConstraints (st : St) : List (AEx × Bool) → Option Bool
  | [] => some true
  | e :: rest =>
    match evalA st e.1, evalConstraints st rest with
    | some n, some b => some ((if e.2 then n == 0 else decide (0 ≤ n)) && b)
    | _, _ => none

/-- `IntegerSet` satisfaction. -/
def evalCondSet (st : St) (c : CondSet) : Option Bool :=
  evalConstraints st c.exprs

/-- Reading an uninitialised location yields 0. -/
def readHeap (st : St) (b : Nat) (is : List Int) : Int :=
  (st.heap.lookup (b, is)).getD 0

mutual

def interp : Nat → St → List Op → Option St
  | 0, _, _ => none
  | _ + 1, st, [] => some st
  | fuel + 1, st, op :: rest => do
    let st' ← interpOp fuel st op
    interp fuel st' rest

def interpOp : Nat → St → Op → Option St
  | 0, _, _ => none
  | fuel + 1, st, op =>
    match op with
    | .load _ r m idx _ => do
      let b ← st.mrefs.lookup m
      let is ← idx.mapM (evalA st)
      return setVal st r (readHeap st b is)
    | .store _ v m idx => do
      let b ← st.mrefs.lookup m
      let is ← idx.mapM (evalA st)
      let n ← st.vals.lookup v
      return { st with heap := ((b, is), n) :: st.heap }
    | .alloc _ m =>
      some { st with mrefs := (m, st.nextBuf) :: st.mrefs, nextBuf := st.nextBuf + 1 }
    | .dealloc _ _ => some st
    | .konst _ r n _ => some (setVal st r n)
    | .select _ r c tv fv _ => do
      let cv ← evalCondSet st c
      let n ← st.vals.lookup (if cv then tv else fv)
      return setVal st r n
    | .affineIf _ c t e he => do
      let cv ← evalCondSet st c
      if cv then interp fuel st t
      else if he then interp fuel st e
      else return st
    | .affineFor _ iv lb ub body => interpFor fuel st iv lb (ub - lb).toNat body
    | .effOp .. => none
    | .unknownOp _ => none

def interpFor : Nat → St → Nat → Int → Nat → List Op → Option St
  | 0, _, _, _, _, _ => none
  | _ + 1, st, _, _, 0, _ => some st
  | fuel + 1, st, iv, i, k + 1, body => do
    let st' ← interp fuel (setVal st iv i) body
    interpFor fuel st' iv (i + 1) k body

end

/-- Run a function body from an initial binding of its memref arguments to
buffers. -/
def runFunc (fuel : Nat) (f : Func) (mrefs : List (Nat × Nat))
    (nextBuf : Nat) : Option St :=
  interp fuel ⟨[], mrefs, [], nextBuf⟩ f.body

/-! ## The relocation step of `AffineLoopPerfection`

Embedding of the body of the walk callback of
`AffineLoopPerfection::runOnOperation` (the relocation of the operations
around the direct inner loop `loops.back()` into the innermost loop
`loops.front()`).  In the model every loop bound is constant, so the
`has non-constant lower/upper bound` diagnostics cannot fire. -/

/-- The data of an already-collected inner loop. -/
structure LoopInfo where
  uid : Nat
  iv : Nat
  lb : Int
  ub : Int
deriving DecidableEq, Repr

def Op.hasResults (o : Op) : Bool := !o.results.isEmpty

/-- The integer set guarding relocated front operations: for each collected
inner loop, `iv - lowerBound = 0`. -/
def frontCond (loops : List LoopInfo) : CondSet :=
  ⟨loops.map fun lp => (AEx.sub (.var lp.iv) (.cst lp.lb), true)⟩

/-- The integer set guarding relocated back operations: for each collected
inner loop, `(upperBound - 1) - iv = 0`. -/
def backCond (loops : List LoopInfo) : CondSet :=
  ⟨loops.map fun lp => (AEx.sub (.cst (lp.ub - 1)) (.var lp.iv), true)⟩

/-- Apply `g` to the body of the innermost loop of a processed sequential
chain: every already-perfected level's body consists of exactly its inner
loop, so the innermost loop is found by following singleton loop bodies. -/
def setInnermost (g : List Op → List Op) : Op → Op
  | .affineFor u iv lb ub [inner@(.affineFor ..)] =>
    .affineFor u iv lb ub [setInnermost g inner]
  | .affineFor u iv lb ub body => .affineFor u iv lb ub (g body)
  | o => o

/-- The body of the innermost loop along the singleton chain. -/
def innermostBodyOf : Op → List Op
  | .affineFor _ _ _ _ [inner@(.affineFor ..)] => innermostBodyOf inner
  | .affineFor _ _ _ _ body => body
  | _ => []

/-- A block consisting of exactly one loop — the link shape of a perfected
chain. -/
def isSingletonFor : List Op → Bool
  | [.affineFor ..] => true
  | _ => false

/-- One walk step of the loop-perfection pass on the loop directly enclosing
the chain `loops` (listed innermost first, as collected by the post-order
walk): the operations before `loops.back()` are relocated to the start of the
innermost body — those with results in front of a fresh single-branch
`affine.if` guarded by `frontCond loops`, those without results into its
then-block — and symmetrically the operations after `loops.back()` (the
implicit terminator excluded) are relocated to the end of the innermost body
around a conditional guarded by `backCond loops`. -/
def perfectStep (loops : List LoopInfo) (loop : Op) (fresh : Nat) : Op × Nat :=
  match loop, loops.getLast? with
  | .affineFor u iv lb ub body, some innerInfo =>
    let front := body.takeWhile (fun o => o.uid != innerInfo.uid)
    let back := (body.reverse.takeWhile (fun o => o.uid != innerInfo.uid)).reverse
    let mid := (body.drop front.length).take (body.length - front.length - back.length)
    let step1 : List Op × Nat :=
      if front.isEmpty then (mid, fresh)
      else
        let ifOp : Op :=
          .affineIf fresh (frontCond loops) (front.filter (fun o => !o.hasResults)) [] false
        (mid.map (setInnermost fun ib => front.filter Op.hasResults ++ [ifOp] ++ ib),
          fresh + 1)
    let step2 : List Op × Nat :=
      if back.isEmpty then step1
      else
        let ifOp : Op :=
          .affineIf step1.2 (backCond loops) (back.filter (fun o => !o.hasResults)) [] false
        (step1.1.map (setInnermost fun ib => ib ++ back.filter Op.hasResults ++ [ifOp]),
          step1.2 + 1)
    (.affineFor u iv lb ub step2.1, step2.2)
  | _, _ => (loop, fresh)

/-! ## Concrete instances used by the theorems below -/

/-- The most conservative dependence oracle: every query reports a
dependence. -/
def depC : DepOracle := fun _ _ _ => .hasDependence

/-- A function with two memref block arguments `%a = 100`, `%b = 101`:
`%c5 = constant 5; %c7 = constant 7; store %c5 -> %a[0]; store %c7 -> %b[0];
%x = load %a[0]; store %x -> %a[1]`.  Caller-supplied memref arguments may
alias in MLIR (nothing in the IR constrains the buffers they denote). -/
def cxF1 : Func := ⟨[100, 101],
  [.konst 1 102 5 .scalar,
   .konst 2 103 7 .scalar,
   .store 3 102 100 [.cst 0],
   .store 4 103 101 [.cst 0],
   .load 5 105 100 [.cst 0] .scalar,
   .store 6 105 100 [.cst 1]]⟩

/-- A function with a zero-trip loop:
`%c5 = constant 5; affine.for %i = 0 to 0 { store %c5 -> %a[0];
store %c5 -> %a[0]; %x = load %a[0] }`. -/
def cxF6 : Func := ⟨[100],
  [.konst 1 102 5 .scalar,
   .affineFor 2 110 0 0
     [.store 3 102 100 [.cst 0],
      .store 4 102 100 [.cst 0],
      .load 5 105 100 [.cst 0] .scalar]]⟩

/-- Modelled from the spec: the affine dependence tester
(`checkMemrefAccessDependence`, an external collaborator not under `src/`)
instantiated on `cxF6`.  Every access of `cxF6` lies inside the loop
`affine.for %i = 0 to 0`, so the constraint system of every dependence query
contains the empty loop domain `0 <= %i <= -1` and is infeasible; the spec's
contract — "infeasibility of the constraint system at depth `d` implies
NoDependence at that depth" — therefore forces `NoDependence` on every
query made on this function. -/
def dep6 : DepOracle := fun _ _ _ => .noDependence

/-- Direct store-to-load forwarding:
`%c5 = constant 5; store %c5 -> %a[0]; %x = load %a[0]; store %x -> %a[1]`. -/
def cxF2 : Func := ⟨[100],
  [.konst 1 102 5 .scalar,
   .store 2 102 100 [.cst 0],
   .load 3 103 100 [.cst 0] .scalar,
   .store 4 103 100 [.cst 1]]⟩

/-- The type-mismatch veto: a scalar store followed by a vector load of the
same access. -/
def cxF7 : Func := ⟨[100],
  [.konst 1 102 5 .scalar,
   .store 2 102 100 [.cst 0],
   .load 3 103 100 [.cst 0] .vector,
   .store 4 103 100 [.cst 1]]⟩

/-- A trivially satisfiable single-branch condition (`1 >= 0`). -/
def c5cond : CondSet := ⟨[(.cst 1, false)]⟩

/-- The conditional-store hoist scenario: a single-branch conditional whose
sole operation is a store, followed by a non-dominated load of the same
access. -/
def cxF5 : Func := ⟨[100],
  [.konst 1 102 5 .scalar,
   .affineIf 2 c5cond [.store 3 102 100 [.cst 0]] [] false,
   .load 4 104 100 [.cst 0] .scalar,
   .store 5 104 100 [.cst 1]]⟩

/-- Two equivalent stores inside one conditional, the second overwriting the
first with no read in between. -/
def cxF9 : Func := ⟨[100],
  [.konst 1 102 1 .scalar,
   .konst 2 103 2 .scalar,
   .affineIf 3 c5cond [.store 4 102 100 [.cst 0], .store 5 103 100 [.cst 0]] [] false]⟩

/-- Two memref arguments `%a = 100`, `%b = 101` with a store to `%b`
standing between a store to `%a` and a load of `%a`. -/
def cxF3 : Func := ⟨[100, 101],
  [.konst 1 102 5 .scalar,
   .store 2 102 100 [.cst 0],
   .store 3 102 101 [.cst 0],
   .load 4 105 100 [.cst 0] .scalar]⟩

/-- Two loads of the same access, the first dominating the second. -/
def cxF8 : Func := ⟨[100],
  [.load 1 102 100 [.cst 0] .scalar,
   .load 2 103 100 [.cst 0] .scalar,
   .store 3 103 100 [.cst 1]]⟩

/-- A two-level loop nest with operations before and after the inner loop:
the outer body is `%c = constant 7; store %c -> %a[%i];
affine.for %j = 0 to 3 { store %c -> %a[%j] }; store %c -> %a[%i + 1]`. -/
def cxLoop : Op := .affineFor 1 110 0 4
  [.konst 2 120 7 .scalar,
   .store 3 120 100 [.var 110],
   .affineFor 4 111 0 3 [.store 5 120 100 [.var 111]],
   .store 6 120 100 [.add (.var 110) (.cst 1)]]

/-! ## Theorems -/

/-- C1.  The full pass does not preserve observable behaviour on every
function body: on `cxF1`, whose two memref arguments are bound to the same
buffer by the caller (which MLIR permits), the original program leaves 7 at
location `[1]` of the buffer, but the transformed program leaves 5 there.
The pass forwards `store %c5 -> %a[0]` to `%x = load %a[0]` across the
intervening `store %c7 -> %b[0]` because the interference scanner's
`srcAccess.memref != destAccess.memref` early return assumes distinct memref
values never alias — the deliberate deviation from the in-tree MLIR pass that
the source itself flags with `FIXME: This is unsafe as the two memref may be
alias with each other`. -/
theorem applyAffineStoreForward_not_behaviour_preserving :
    (runFunc 100 cxF1 [(100, 0), (101, 0)] 1).map (fun st => readHeap st 0 [1]) =
      some 7 ∧
    (runFunc 100 (applyAffineStoreForward depC cxF1 200) [(100, 0), (101, 0)] 1).map
        (fun st => readHeap st 0 [1]) = some 5 :=
  ⟨rfl, rfl⟩

/-- C6.  Two distinct stores (uids 3 and 4 of `cxF6`) simultaneously satisfy
all three forwarding-candidate conditions for the load of `cxF6`, under the
spec-conforming dependence tester `dep6` (the zero-trip loop makes every
dependence constraint system infeasible, which the spec's tester contract
resolves to NoDependence).  The `assert(lastWriteStoreOp == nullptr)` of
`forwardStoreToLoad` therefore fires on this input. -/
theorem forwardStoreToLoad_two_simultaneous_candidates :
    fwdCands dep6 cxF6 (.load 5 105 100 [.cst 0] .scalar) = [3, 4] := rfl

/-- No operation of the modelled fragment carries the `AffineScope` trait, so
every operation lies in the root scope (the function). -/
theorem scopeAnc_eq_false (f : Func) (p : Nat × Nat) : scopeAnc f p = false := by
  unfold scopeAnc
  cases getOp? f p.1 <;> simp [Op.hasAffineScopeTrait]

theorem getAffineScope_eq_none (f : Func) (u : Nat) : getAffineScope f u = none := by
  unfold getAffineScope
  cases h : ctx? f u with
  | none => rfl
  | some c =>
    have hf : c.ancestors.reverse.find? (scopeAnc f) = none :=
      List.find?_eq_none.mpr (fun p _ => by simp [scopeAnc_eq_false])
    simp [hf]

/-- An operation with an effect list is dispatched to the effect-filter
branch of `checkOperation`. -/
theorem checkOperation_of_getEffects_some (dep : DepOracle) (f : Func)
    (kind : EffKind) (startUid : Nat) (memOp : Op) (memref : Nat) (op : Op)
    (effs : List EffInst) (heff : op.getEffects = some effs) :
    checkOperation dep f kind startUid memOp memref op =
      checkOperationLeaf dep f kind startUid memOp memref op := by
  cases op <;> first | rfl | simp [Op.getEffects] at heff

/-- The dependence loop reports an effect iff some depth in
`[minSurroundingLoops + 1, nsLoops + 1]` yields a non-NoDependence result. -/
theorem affineDepCheck_iff (dep : DepOracle) (f : Func)
    (startUid memOpUid opUid : Nat) (src dst : MemAccess) :
    affineDepCheck dep f startUid memOpUid opUid src dst = true ↔
      ∃ d, numCommonSurroundingLoops f startUid memOpUid + 1 ≤ d ∧
        d ≤ numCommonSurroundingLoops f opUid memOpUid + 1 ∧
        dep src dst d ≠ .noDependence := by
  unfold affineDepCheck
  rw [List.any_eq_true]
  constructor
  · rintro ⟨k, hk, hdep⟩
    rw [List.mem_range] at hk
    refine ⟨numCommonSurroundingLoops f opUid memOpUid + 1 - k, by omega, by omega, ?_⟩
    simpa using hdep
  · rintro ⟨d, h1, h2, hdep⟩
    refine ⟨numCommonSurroundingLoops f opUid memOpUid + 1 - d, ?_, ?_⟩
    · rw [List.mem_range]; omega
    · have hd : numCommonSurroundingLoops f opUid memOpUid + 1 -
          (numCommonSurroundingLoops f opUid memOpUid + 1 - d) = d := by omega
      rw [hd]
      simpa using hdep

/-- C4.  For a visited affine read or write on the same memref (always in the
same affine scope in the modelled fragment, whose only `AffineScope` operation
is the function), the scanner declares interference iff some dependence depth
`d` with `numCommonSurroundingLoops(start, endOp) + 1 <= d <=
numCommonSurroundingLoops(op, endOp) + 1` yields a result other than
`NoDependence` — in particular an indeterminate (`failure`) result counts as
interference; if every depth in the range yields `NoDependence`, the
operation contributes no interference. -/
theorem checkOperation_affine_dependence_range (dep : DepOracle) (f : Func)
    (kind : EffKind) (startUid : Nat) (memOp op : Op) (memref : Nat)
    (srcAccess destAccess : MemAccess)
    (hsrc : op.accessOf = some srcAccess)
    (hdst : memOp.accessOf = some destAccess)
    (hmem : srcAccess.memref = destAccess.memref)
    (heff : op.getEffects = some [⟨kind, some memref⟩]) :
    checkOperation dep f kind startUid memOp memref op = true ↔
      ∃ d, numCommonSurroundingLoops f startUid memOp.uid + 1 ≤ d ∧
        d ≤ numCommonSurroundingLoops f op.uid memOp.uid + 1 ∧
        dep srcAccess destAccess d ≠ .noDependence := by
  have hmay : opMayHaveEffectB f kind memref [⟨kind, some memref⟩] = true := by
    simp [opMayHaveEffectB, effectSkipped]
  have haff : op.isAffineReadOrWrite = true := by
    cases op <;> simp_all [Op.accessOf, Op.isAffineReadOrWrite]
  have h1 : (srcAccess.memref != destAccess.memref) = false := by simp [hmem]
  have h2 : (getAffineScope f op.uid == getAffineScope f memOp.uid &&
      getAffineScope f op.uid == getAffineScope f startUid) = true := by
    simp [getAffineScope_eq_none]
  rw [checkOperation_of_getEffects_some dep f kind startUid memOp memref op _ heff]
  unfold checkOperationLeaf
  rw [heff]
  simp only [hmay, haff, Bool.not_true, Bool.false_eq_true, if_false, if_true]
  rw [hsrc, hdst]
  simp only [h1, h2, Bool.false_eq_true, if_false, if_true]
  exact affineDepCheck_iff dep f startUid memOp.uid op.uid srcAccess destAccess

/-- C3 (counterexample).  In `cxF3` the store to the block-argument memref
`%b = 101` stands between `store %c5 -> %a[0]` and `%x = load %a[0]`, declares
the queried Write effect, and neither `%a` nor `%b` is a locally-allocated
buffer — yet the scanner disregards it (no interference is reported, even
under the always-dependence oracle, so the operation was never considered):
the affine-write bailout `srcAccess.memref != destAccess.memref` excludes it,
a condition the claim says does not exist. -/
theorem checkOperation_unlicensed_exclusion :
    hasNoInterveningEffect depC cxF3 .write 2 4 = some true ∧
    checkOperation depC cxF3 .write 2 (.load 4 105 100 [.cst 0] .scalar) 100
        (.store 3 102 101 [.cst 0]) = false ∧
    Op.getEffects (.store 3 102 101 [.cst 0]) = some [⟨.write, some 101⟩] ∧
    isLocallyAllocated cxF3 101 = false ∧
    isLocallyAllocated cxF3 100 = false :=
  ⟨rfl, rfl, rfl, rfl, rfl⟩

/-- C3 (amended).  A visited operation declaring the queried effect kind is
excluded from consideration (no interference for every dependence oracle) iff
either every matching effect instance is skipped by the narrow non-aliasing
heuristic (value distinct from the target, both locally allocated), or the
operation is an affine read/write on a memref distinct from the target — the
unconditional bailout the source marks `FIXME: This is unsafe`.  The
hypothesis on surrounding-loop counts scopes the statement to visited
operations whose dependence-depth range is non-empty (which holds for every
operation the scanner actually visits between `start` and `memOp`). -/
theorem checkOperation_exclusion_characterisation (f : Func) (kind : EffKind)
    (startUid : Nat) (memOp op : Op) (memref : Nat) (effs : List EffInst)
    (destAccess : MemAccess)
    (heff : op.getEffects = some effs)
    (_hdecl : ∃ e ∈ effs, e.kind = kind)
    (hdst : memOp.accessOf = some destAccess)
    (hmem : destAccess.memref = memref)
    (hloops : numCommonSurroundingLoops f startUid memOp.uid ≤
        numCommonSurroundingLoops f op.uid memOp.uid) :
    (∀ dep : DepOracle, checkOperation dep f kind startUid memOp memref op = false) ↔
      ((∀ e ∈ effs, e.kind = kind → effectSkipped f memref e = true) ∨
        ∃ srcAccess, op.accessOf = some srcAccess ∧ srcAccess.memref ≠ memref) := by
  have hbridge : ∀ dep : DepOracle,
      checkOperation dep f kind startUid memOp memref op =
        checkOperationLeaf dep f kind startUid memOp memref op := fun dep =>
    checkOperation_of_getEffects_some dep f kind startUid memOp memref op effs heff
  by_cases hmay : opMayHaveEffectB f kind memref effs = true
  · -- some matching effect instance survives the filter
    have hnotall : ¬(∀ e ∈ effs, e.kind = kind → effectSkipped f memref e = true) := by
      unfold opMayHaveEffectB at hmay
      rw [List.any_eq_true] at hmay
      obtain ⟨e, he, hee⟩ := hmay
      rw [Bool.and_eq_true, beq_iff_eq, Bool.not_eq_true'] at hee
      intro hall
      have h := hall e he hee.1
      rw [hee.2] at h
      cases h
    by_cases haff : op.isAffineReadOrWrite = true
    · obtain ⟨srcAccess, hsrc⟩ : ∃ sa, op.accessOf = some sa := by
        cases op <;> simp_all [Op.isAffineReadOrWrite, Op.accessOf]
      by_cases hne : srcAccess.memref = memref
      · -- considered: the always-dependence oracle reports interference
        refine iff_of_false ?_ ?_
        · intro hforall
          have h := hforall depC
          rw [hbridge depC] at h
          unfold checkOperationLeaf at h
          rw [heff] at h
          simp only [hmay, Bool.not_true, Bool.false_eq_true, if_false, haff,
            if_true] at h
          rw [hsrc, hdst] at h
          have h1 : (srcAccess.memref != destAccess.memref) = false := by
            simp [hne, hmem]
          have h2 : (getAffineScope f op.uid == getAffineScope f memOp.uid &&
              getAffineScope f op.uid == getAffineScope f startUid) = true := by
            simp [getAffineScope_eq_none]
          simp only [h1, h2, Bool.false_eq_true, if_false, if_true] at h
          have h3 : affineDepCheck depC f startUid memOp.uid op.uid srcAccess
              destAccess = true := by
            rw [affineDepCheck_iff]
            exact ⟨numCommonSurroundingLoops f op.uid memOp.uid + 1, by omega,
              le_refl _, by simp [depC]⟩
          rw [h3] at h
          cases h
        · rintro (hall | ⟨sa, hsa, hne'⟩)
          · exact hnotall hall
          · rw [hsrc] at hsa
            cases hsa
            exact hne' hne
      · -- excluded by the different-memref bailout
        refine iff_of_true ?_ (Or.inr ⟨srcAccess, hsrc, hne⟩)
        intro dep
        rw [hbridge dep]
        unfold checkOperationLeaf
        rw [heff]
        simp only [hmay, Bool.not_true, Bool.false_eq_true, if_false, haff, if_true]
        rw [hsrc, hdst]
        have h1 : (srcAccess.memref != destAccess.memref) = true := by
          rw [bne_iff_ne]
          rw [hmem]
          exact hne
        simp [h1]
    · -- no affine access: conservative interference
      have hnone : op.accessOf = none := by
        cases op <;> simp_all [Op.isAffineReadOrWrite, Op.accessOf]
      refine iff_of_false ?_ ?_
      · intro hforall
        have h := hforall depC
        rw [hbridge depC] at h
        unfold checkOperationLeaf at h
        rw [heff] at h
        simp [hmay, haff] at h
      · rintro (hall | ⟨sa, hsa, _⟩)
        · exact hnotall hall
        · rw [hnone] at hsa
          cases hsa
  · -- every matching effect instance is skipped
    have hall : ∀ e ∈ effs, e.kind = kind → effectSkipped f memref e = true := by
      intro e he hk
      by_contra hsk
      apply hmay
      unfold opMayHaveEffectB
      rw [List.any_eq_true]
      refine ⟨e, he, ?_⟩
      rw [Bool.and_eq_true, beq_iff_eq, Bool.not_eq_true']
      exact ⟨hk, Bool.not_eq_true _ ▸ (by revert hsk; cases effectSkipped f memref e <;> simp)⟩
    refine iff_of_true ?_ (Or.inl hall)
    intro dep
    rw [hbridge dep]
    unfold checkOperationLeaf
    rw [heff]
    rw [Bool.not_eq_true] at hmay
    simp [hmay]

/-- Witness for the amended C3 at a concrete input: the intervening store of
`cxF3` to the other memref argument is excluded exactly by the
different-memref bailout. -/
theorem checkOperation_exclusion_characterisation_witness :
    (∀ dep : DepOracle,
        checkOperation dep cxF3 .write 2 (.load 4 105 100 [.cst 0] .scalar) 100
          (.store 3 102 101 [.cst 0]) = false) ↔
      ((∀ e ∈ [(⟨.write, some 101⟩ : EffInst)], e.kind = .write →
          effectSkipped cxF3 100 e = true) ∨
        ∃ srcAccess, Op.accessOf (.store 3 102 101 [.cst 0]) = some srcAccess ∧
          srcAccess.memref ≠ 100) :=
  checkOperation_exclusion_characterisation cxF3 .write 2
    (.load 4 105 100 [.cst 0] .scalar) (.store 3 102 101 [.cst 0]) 100
    [⟨.write, some 101⟩] ⟨4, 100, [.cst 0]⟩ rfl
    ⟨⟨.write, some 101⟩, by simp, rfl⟩ rfl rfl (by decide)

mutual

/-- The operation found by uid carries that uid. -/
theorem getOpIn_uid (l : List Op) (u : Nat) (o : Op) (h : getOpIn l u = some o) :
    o.uid = u := by
  match l with
  | [] => exact absurd h (by simp [getOpIn])
  | o' :: os =>
    rw [getOpIn] at h
    by_cases he : o'.uid = u
    · rw [if_pos he] at h
      cases h
      exact he
    · rw [if_neg he] at h
      cases hn : getOpNested o' u with
      | some r =>
        rw [hn] at h
        cases h
        exact getOpNested_uid o' u o hn
      | none =>
        rw [hn] at h
        exact getOpIn_uid os u o h

theorem getOpNested_uid (p : Op) (u : Nat) (o : Op) (h : getOpNested p u = some o) :
    o.uid = u := by
  match p with
  | .affineIf pu c t e he =>
    rw [getOpNested] at h
    cases ht : getOpIn t u with
    | some r =>
      rw [ht] at h
      cases h
      exact getOpIn_uid t u o ht
    | none =>
      rw [ht] at h
      by_cases hhe : he = true
      · rw [if_pos hhe] at h
        exact getOpIn_uid e u o h
      · rw [if_neg hhe] at h
        cases h
  | .affineFor pu iv lb ub b =>
    rw [getOpNested] at h
    exact getOpIn_uid b u o h
  | .load .. => exact absurd h (by simp [getOpNested])
  | .store .. => exact absurd h (by simp [getOpNested])
  | .alloc .. => exact absurd h (by simp [getOpNested])
  | .dealloc .. => exact absurd h (by simp [getOpNested])
  | .konst .. => exact absurd h (by simp [getOpNested])
  | .select .. => exact absurd h (by simp [getOpNested])
  | .effOp .. => exact absurd h (by simp [getOpNested])
  | .unknownOp .. => exact absurd h (by simp [getOpNested])

end

theorem getOp?_uid (f : Func) (u : Nat) (o : Op) (h : getOp? f u = some o) :
    o.uid = u :=
  getOpIn_uid f.body u o h

/-- When the relaxation conditions hold — the store's parent is a
single-branch conditional holding only the store, whose parent region is an
ancestor of the load's region — the conditional is the effective start. -/
theorem effectiveStart_of_relax (f : Func) (u loadUid pu : Nat)
    (pcond : CondSet) (thenOps els : List Op)
    (hp : parentOp? f u = some (.affineIf pu pcond thenOps els false))
    (hlen : thenOps.length = 1)
    (hanc : ∃ ci cl, ctx? f pu = some ci ∧ ctx? f loadUid = some cl ∧
        pathIsAncestor ci.ancestors cl.ancestors = true) :
    effectiveStart f u loadUid = pu := by
  obtain ⟨ci, cl, hci, hcl, ha⟩ := hanc
  unfold effectiveStart
  rw [hp]
  dsimp only
  rw [hci, hcl]
  simp [hlen, ha]

/-- The effective start is either the store itself or, under exactly the
relaxation conditions, the enclosing conditional. -/
theorem effectiveStart_eq_self_or_relax (f : Func) (u loadUid : Nat) :
    effectiveStart f u loadUid = u ∨
    ∃ pu pcond thenOps els,
      parentOp? f u = some (.affineIf pu pcond thenOps els false) ∧
      thenOps.length = 1 ∧
      (∃ ci cl, ctx? f pu = some ci ∧ ctx? f loadUid = some cl ∧
        pathIsAncestor ci.ancestors cl.ancestors = true) ∧
      effectiveStart f u loadUid = pu := by
  unfold effectiveStart
  cases hp : parentOp? f u with
  | none => exact Or.inl rfl
  | some op =>
    cases op with
    | affineIf pu pcond t e he =>
      dsimp only
      cases hci : ctx? f pu with
      | none => exact Or.inl rfl
      | some ci =>
        cases hcl : ctx? f loadUid with
        | none => exact Or.inl rfl
        | some cl =>
          dsimp only
          by_cases hcond : (!he && t.length == 1 &&
              pathIsAncestor ci.ancestors cl.ancestors) = true
          · have hparts := hcond
            rw [Bool.and_eq_true, Bool.and_eq_true] at hparts
            obtain ⟨⟨h2, h3⟩, h4⟩ := hparts
            have hhe : he = false := by
              cases he
              · rfl
              · simp at h2
            have hlen : t.length = 1 := by simpa using h3
            subst hhe
            exact Or.inr ⟨pu, pcond, t, e, rfl, hlen, ⟨ci, cl, hci, rfl, h4⟩,
              if_pos hcond⟩
          · exact Or.inl (if_neg hcond)
    | load a b c d ty => exact Or.inl rfl
    | store a b c d => exact Or.inl rfl
    | alloc a b => exact Or.inl rfl
    | dealloc a b => exact Or.inl rfl
    | konst a b c d => exact Or.inl rfl
    | select a b c d e g => exact Or.inl rfl
    | affineFor a b c d e => exact Or.inl rfl
    | effOp a b => exact Or.inl rfl
    | unknownOp a => exact Or.inl rfl

/-- The candidate filter of `forwardStoreToLoad`, in explicit form: the user
is a store of the same memref with an equal access, and dominance plus
no-intervening-write hold from the effective start. -/
theorem fwdCandidateCond_iff (dep : DepOracle) (f : Func)
    (loadUid lres lmem : Nat) (lidx : List AEx) (lty : Ty) (u : Nat) :
    fwdCandidateCond dep f (.load loadUid lres lmem lidx lty) u = true ↔
      ∃ sv sidx, getOp? f u = some (.store u sv lmem sidx) ∧
        accessEq ⟨u, lmem, sidx⟩ ⟨loadUid, lmem, lidx⟩ = true ∧
        dominates f (effectiveStart f u loadUid) loadUid = true ∧
        hasNoInterveningEffect dep f .write (effectiveStart f u loadUid) loadUid =
          some true := by
  unfold fwdCandidateCond
  cases hg : getOp? f u with
  | none =>
    dsimp only
    exact iff_of_false (by simp) (by rintro ⟨sv, sidx, h, _⟩; simp at h)
  | some op =>
    cases op with
    | store w sv m i =>
      have hw : w = u := getOp?_uid f u _ hg
      subst hw
      dsimp only [Op.accessOf, Op.uid]
      constructor
      · intro h
        rw [Bool.and_eq_true, Bool.and_eq_true] at h
        obtain ⟨hacc, hdom, hiv⟩ := h
        unfold accessEq at hacc
        dsimp only at hacc
        rw [Bool.and_eq_true, beq_iff_eq, beq_iff_eq] at hacc
        obtain ⟨hm, hi⟩ := hacc
        subst hm
        refine ⟨sv, i, rfl, ?_, hdom, by simpa using hiv⟩
        unfold accessEq
        simp [hi]
      · rintro ⟨sv', sidx', heq, hacc, hdom, hiv⟩
        have heq' := Option.some.inj heq
        cases heq'
        rw [Bool.and_eq_true, Bool.and_eq_true]
        refine ⟨?_, hdom, by simpa using hiv⟩
        unfold accessEq at hacc ⊢
        simpa using hacc
    | load a b c d ty =>
      exact iff_of_false (by simp) (by rintro ⟨sv, sidx, h, _⟩; simp at h)
    | alloc a b =>
      exact iff_of_false (by simp) (by rintro ⟨sv, sidx, h, _⟩; simp at h)
    | dealloc a b =>
      exact iff_of_false (by simp) (by rintro ⟨sv, sidx, h, _⟩; simp at h)
    | konst a b c d =>
      exact iff_of_false (by simp) (by rintro ⟨sv, sidx, h, _⟩; simp at h)
    | select a b c d e g =>
      exact iff_of_false (by simp) (by rintro ⟨sv, sidx, h, _⟩; simp at h)
    | affineIf a b c d e =>
      exact iff_of_false (by simp) (by rintro ⟨sv, sidx, h, _⟩; simp at h)
    | affineFor a b c d e =>
      exact iff_of_false (by simp) (by rintro ⟨sv, sidx, h, _⟩; simp at h)
    | effOp a b =>
      exact iff_of_false (by simp) (by rintro ⟨sv, sidx, h, _⟩; simp at h)
    | unknownOp a =>
      exact iff_of_false (by simp) (by rintro ⟨sv, sidx, h, _⟩; simp at h)

/-- C2.  A store is accepted as the forwarding source for a load iff (1) its
access is equivalent to the load's access, and either (2a) the relaxation
applies — it is the sole operation of a single-branch conditional whose
parent region is an ancestor of the load's region, and then the conditional
must dominate the load and serves as the interference start point — or (2b)
the store itself is the start point and dominates the load, with (3) no
intervening write effect between the start point and the load in either case.
In the directly-dominating success case, all uses of the load's result are
replaced by the stored value, the load is appended to the deferred-erase
list, and its memref is recorded for the dead-buffer sweep. -/
theorem forwardStoreToLoad_candidates_and_success (dep : DepOracle) (f : Func)
    (loadUid lres lmem : Nat) (lidx : List AEx) (lty : Ty)
    (hload : getOp? f loadUid = some (.load loadUid lres lmem lidx lty)) :
    (∀ u, u ∈ fwdCands dep f (.load loadUid lres lmem lidx lty) ↔
      (u ∈ usersOf f lmem ∧
        ∃ sv sidx, getOp? f u = some (.store u sv lmem sidx) ∧
          accessEq ⟨u, lmem, sidx⟩ ⟨loadUid, lmem, lidx⟩ = true ∧
          ((∃ pu pcond thenOps els,
              parentOp? f u = some (.affineIf pu pcond thenOps els false) ∧
              thenOps.length = 1 ∧
              (∃ ci cl, ctx? f pu = some ci ∧ ctx? f loadUid = some cl ∧
                pathIsAncestor ci.ancestors cl.ancestors = true) ∧
              effectiveStart f u loadUid = pu ∧
              dominates f pu loadUid = true ∧
              hasNoInterveningEffect dep f .write pu loadUid = some true) ∨
            (effectiveStart f u loadUid = u ∧
              dominates f u loadUid = true ∧
              hasNoInterveningEffect dep f .write u loadUid = some true)))) ∧
    (∀ sUid sv sidx (le me : List Nat) (fr : Nat),
      fwdCands dep f (.load loadUid lres lmem lidx lty) = [sUid] →
      getOp? f sUid = some (.store sUid sv lmem sidx) →
      typeOf f sv = some lty →
      dominates f sUid loadUid = true →
      forwardStoreToLoad dep f loadUid le me fr =
        ⟨replaceAllUses f lres sv, none, le ++ [loadUid], insertMem me lmem, fr⟩) := by
  constructor
  · intro u
    unfold fwdCands
    rw [List.mem_filter]
    rw [fwdCandidateCond_iff dep f loadUid lres lmem lidx lty u]
    constructor
    · rintro ⟨hu, sv, sidx, hst, hacc, hdom, hiv⟩
      refine ⟨hu, sv, sidx, hst, hacc, ?_⟩
      rcases effectiveStart_eq_self_or_relax f u loadUid with hes | hrel
      · right
        rw [hes] at hdom hiv
        exact ⟨hes, hdom, hiv⟩
      · left
        obtain ⟨pu, pcond, thenOps, els, hp, hlen, hanc, hes⟩ := hrel
        rw [hes] at hdom hiv
        exact ⟨pu, pcond, thenOps, els, hp, hlen, hanc, hes, hdom, hiv⟩
    · rintro ⟨hu, sv, sidx, hst, hacc, hrest⟩
      refine ⟨hu, sv, sidx, hst, hacc, ?_⟩
      rcases hrest with ⟨pu, pcond, thenOps, els, hp, hlen, hanc, hes, hdom, hiv⟩ |
        ⟨hes, hdom, hiv⟩
      · rw [hes]
        exact ⟨hdom, hiv⟩
      · rw [hes]
        exact ⟨hdom, hiv⟩
  · intro sUid sv sidx le me fr hcands hstore htype hdom
    unfold forwardStoreToLoad
    rw [hload]
    dsimp only
    rw [hcands]
    have hlast : ([sUid] : List Nat).getLast? = some sUid := rfl
    rw [hlast]
    dsimp only
    rw [hstore]
    dsimp only
    have ht : (typeOf f sv != some lty) = false := by simp [htype]
    rw [ht]
    simp only [Bool.false_eq_true, if_false]
    rw [hdom]
    simp only [Bool.not_true, Bool.false_eq_true, if_false]

/-- Witness for C2 on `cxF2`: the store directly dominates the load, its uses
are replaced by the stored constant, the load is scheduled for erasure and
the memref is recorded. -/
theorem forwardStoreToLoad_candidates_and_success_witness :
    forwardStoreToLoad depC cxF2 3 [] [] 50 =
      ⟨replaceAllUses cxF2 103 102, none, [3], [100], 50⟩ :=
  (forwardStoreToLoad_candidates_and_success depC cxF2 3 103 100 [.cst 0] .scalar
      rfl).2 2 102 [.cst 0] [] [] 50 rfl rfl rfl rfl

/-- C7.  When the unique forwarding-candidate store's value has a type
different from the load's result type, `forwardStoreToLoad` performs no
substitution and leaves the program unchanged: the function, the returned
load, both deferred lists and the id supply all come back untouched, so the
store and the load remain in place. -/
theorem forwardStoreToLoad_type_mismatch_veto (dep : DepOracle) (f : Func)
    (loadUid lres lmem : Nat) (lidx : List AEx) (lty : Ty)
    (sUid sv : Nat) (sidx : List AEx) (le me : List Nat) (fr : Nat)
    (hload : getOp? f loadUid = some (.load loadUid lres lmem lidx lty))
    (hcands : fwdCands dep f (.load loadUid lres lmem lidx lty) = [sUid])
    (hstore : getOp? f sUid = some (.store sUid sv lmem sidx))
    (htype : typeOf f sv ≠ some lty) :
    forwardStoreToLoad dep f loadUid le me fr = ⟨f, some loadUid, le, me, fr⟩ := by
  unfold forwardStoreToLoad
  rw [hload]
  dsimp only
  rw [hcands]
  have hlast : ([sUid] : List Nat).getLast? = some sUid := rfl
  rw [hlast]
  dsimp only
  rw [hstore]
  dsimp only
  have ht : (typeOf f sv != some lty) = true := by simpa [bne_iff_ne] using htype
  rw [if_pos ht]

/-- Witness for C7 on `cxF7`: a scalar store and a vector load of the same
access; nothing is rewritten. -/
theorem forwardStoreToLoad_type_mismatch_veto_witness :
    forwardStoreToLoad depC cxF7 3 [] [] 50 = ⟨cxF7, some 3, [], [], 50⟩ :=
  forwardStoreToLoad_type_mismatch_veto depC cxF7 3 103 100 [.cst 0] .vector
    2 102 [.cst 0] [] [] 50 rfl rfl rfl (by decide)

/-- C5.  When the unique candidate store does not itself dominate the load
(the sole-store-in-conditional case), the transformation replaces the
conditional, at its position in its block, by: a fresh clone of the load, a
select over the conditional's condition choosing between the stored value and
the freshly loaded value, and the store hoisted out of the conditional with
its value operand redirected to the select's result; the conditional
operation itself is erased, all uses of the original load are replaced by the
select's result, the original load is scheduled for erasure, and the fresh
clone of the load is returned. -/
theorem forwardStoreToLoad_conditional_hoist (dep : DepOracle) (f : Func)
    (loadUid lres lmem : Nat) (lidx : List AEx) (lty : Ty)
    (sUid sv : Nat) (sidx : List AEx) (ifUid : Nat) (ifCond : CondSet)
    (thenOps elseOps : List Op) (he : Bool) (le me : List Nat) (fr : Nat)
    (hload : getOp? f loadUid = some (.load loadUid lres lmem lidx lty))
    (hcands : fwdCands dep f (.load loadUid lres lmem lidx lty) = [sUid])
    (hstore : getOp? f sUid = some (.store sUid sv lmem sidx))
    (htype : typeOf f sv = some lty)
    (hdom : dominates f sUid loadUid = false)
    (hif : parentIfUid? f sUid = some ifUid)
    (hifop : getOp? f ifUid = some (.affineIf ifUid ifCond thenOps elseOps he)) :
    forwardStoreToLoad dep f loadUid le me fr =
      ⟨replaceAllUses
          (replaceOpWithList f ifUid
            [.load fr (fr + 1) lmem lidx lty,
             .select (fr + 2) (fr + 3) ifCond sv (fr + 1) lty,
             .store sUid (fr + 3) lmem sidx])
          lres (fr + 3),
        some fr, le ++ [loadUid], me, fr + 4⟩ := by
  unfold forwardStoreToLoad
  rw [hload]
  dsimp only
  rw [hcands]
  have hlast : ([sUid] : List Nat).getLast? = some sUid := rfl
  rw [hlast]
  dsimp only
  rw [hstore]
  dsimp only
  have ht : (typeOf f sv != some lty) = false := by simp [htype]
  rw [ht]
  simp only [Bool.false_eq_true, if_false]
  rw [hdom]
  simp only [Bool.not_false, if_true]
  rw [hif]
  dsimp only
  rw [hifop]

/-- Witness for C5 on `cxF5`: the conditional (uid 2) is replaced by the
cloned load, the select and the hoisted store, and the original load (uid 4)
is scheduled for erasure. -/
theorem forwardStoreToLoad_conditional_hoist_witness :
    forwardStoreToLoad depC cxF5 4 [] [] 50 =
      ⟨replaceAllUses
          (replaceOpWithList cxF5 2
            [.load 50 51 100 [.cst 0] .scalar,
             .select 52 53 c5cond 102 51 .scalar,
             .store 3 53 100 [.cst 0]])
          104 53,
        some 50, [4], [], 54⟩ :=
  forwardStoreToLoad_conditional_hoist depC cxF5 4 104 100 [.cst 0] .scalar
    3 102 [.cst 0] 2 c5cond [.store 3 102 100 [.cst 0]] [] false [] [] 50
    rfl rfl rfl rfl rfl rfl rfl

/-- C8.  Among the load-CSE candidates (same memref, equivalent access,
dominating the target load, no intervening write, identical result type — the
filter `loadCSECond`), the target load's uses are replaced only by a
candidate that dominates every other candidate, and in that case the load is
scheduled for erasure; if no candidate dominates all others, no substitution
occurs and the load is left unchanged. -/
theorem loadCSE_maximal_dominance (dep : DepOracle) (f : Func)
    (loadAUid ares amem : Nat) (aidx : List AEx) (aty : Ty) (le : List Nat)
    (cands : List Nat)
    (hload : getOp? f loadAUid = some (.load loadAUid ares amem aidx aty))
    (hcands : cands = (usersOf f amem).filter
      (loadCSECond dep f (.load loadAUid ares amem aidx aty))) :
    ((∃ b ∈ cands, ∀ b' ∈ cands, b' = b ∨ dominates f b b' = true) →
      ∃ b bres, b ∈ cands ∧ (∀ b' ∈ cands, b' = b ∨ dominates f b b' = true) ∧
        loadValue? f b = some bres ∧
        loadCSE dep f loadAUid le = (replaceAllUses f ares bres, le ++ [loadAUid])) ∧
    ((¬∃ b ∈ cands, ∀ b' ∈ cands, b' = b ∨ dominates f b b' = true) →
      loadCSE dep f loadAUid le = (f, le)) := by
  subst hcands
  set L := (usersOf f amem).filter
    (loadCSECond dep f (.load loadAUid ares amem aidx aty)) with hL
  have hPiff : ∀ b, cseDominatesAll f L b = true ↔
      (∀ b' ∈ L, b' = b ∨ dominates f b b' = true) := by
    intro b
    unfold cseDominatesAll
    rw [List.all_eq_true]
    constructor
    · intro h b' hb'
      have h2 := h b' hb'
      simp only [Bool.or_eq_true, beq_iff_eq] at h2
      exact h2
    · intro h b' hb'
      simp only [Bool.or_eq_true, beq_iff_eq]
      exact h b' hb'
  constructor
  · rintro ⟨b0, hb0, hall0⟩
    have hfind : ∃ b, L.find? (cseDominatesAll f L) = some b := by
      rw [← Option.isSome_iff_exists, List.find?_isSome]
      exact ⟨b0, hb0, (hPiff b0).mpr hall0⟩
    obtain ⟨b, hb⟩ := hfind
    have hbmem : b ∈ L := List.mem_of_find?_eq_some hb
    have hball : ∀ b' ∈ L, b' = b ∨ dominates f b b' = true :=
      (hPiff b).mp (List.find?_some hb)
    have hcond : loadCSECond dep f (.load loadAUid ares amem aidx aty) b = true :=
      (List.mem_filter.mp hbmem).2
    have hbl : ∃ bres, loadValue? f b = some bres := by
      unfold loadCSECond at hcond
      cases hgb : getOp? f b with
      | none =>
        rw [hgb] at hcond
        simp at hcond
      | some op =>
        cases op with
        | load w bres bm bi bt =>
          exact ⟨bres, by simp [loadValue?, hgb]⟩
        | store a1 a2 a3 a4 => rw [hgb] at hcond; simp at hcond
        | alloc a1 a2 => rw [hgb] at hcond; simp at hcond
        | dealloc a1 a2 => rw [hgb] at hcond; simp at hcond
        | konst a1 a2 a3 a4 => rw [hgb] at hcond; simp at hcond
        | select a1 a2 a3 a4 a5 a6 => rw [hgb] at hcond; simp at hcond
        | affineIf a1 a2 a3 a4 a5 => rw [hgb] at hcond; simp at hcond
        | affineFor a1 a2 a3 a4 a5 => rw [hgb] at hcond; simp at hcond
        | effOp a1 a2 => rw [hgb] at hcond; simp at hcond
        | unknownOp a1 => rw [hgb] at hcond; simp at hcond
    obtain ⟨bres, hbres⟩ := hbl
    refine ⟨b, bres, hbmem, hball, hbres, ?_⟩
    unfold loadCSE
    rw [hload]
    dsimp only
    rw [← hL, hb]
    dsimp only
    rw [hbres]
  · intro hnone
    have hfind : L.find? (cseDominatesAll f L) = none := by
      rw [List.find?_eq_none]
      intro b hbm hPb
      exact hnone ⟨b, hbm, (hPiff b).mp hPb⟩
    unfold loadCSE
    rw [hload]
    dsimp only
    rw [← hL, hfind]

/-- Witness for C8 on `cxF8`: the first load dominates the second (the only
candidate), so the second load's uses are replaced by the first load's value
and the second load is scheduled for erasure. -/
theorem loadCSE_maximal_dominance_witness :
    ∃ b bres, b ∈ ((usersOf cxF8 100).filter
        (loadCSECond depC cxF8 (.load 2 103 100 [.cst 0] .scalar))) ∧
      (∀ b' ∈ ((usersOf cxF8 100).filter
          (loadCSECond depC cxF8 (.load 2 103 100 [.cst 0] .scalar))),
        b' = b ∨ dominates cxF8 b b' = true) ∧
      loadValue? cxF8 b = some bres ∧
      loadCSE depC cxF8 2 [] = (replaceAllUses cxF8 103 bres, [] ++ [2]) :=
  (loadCSE_maximal_dominance depC cxF8 2 103 100 [.cst 0] .scalar [] _ rfl rfl).1
    ⟨1, by decide, by decide⟩

/-- C9 (counterexample).  In `cxF9` the second store (uid 5) is distinct from
the first (uid 4), has an equivalent access to the same memref, post-dominates
it, and no read effect intervenes — every condition of the claim — yet
`findUnusedStore` schedules nothing: the code computes effective targets with
the `checkSameIfStatement` relaxation (which turns store 5's target into the
enclosing conditional, uid 3, because store 4's parent is that same
conditional) and then requires both targets to lie in the same region, a
condition the claim omits, which fails here (store 4 sits inside the
conditional's region, the conditional outside). -/
theorem findUnusedStore_region_restriction_cex :
    (findUnusedStore depC cxF9 4 [] []).1 = [] ∧
    getOp? cxF9 5 = some (.store 5 103 100 [.cst 0]) ∧
    (5 : Nat) ≠ 4 ∧
    accessEq ⟨5, 100, [.cst 0]⟩ ⟨4, 100, [.cst 0]⟩ = true ∧
    postDominates cxF9 5 4 = true ∧
    hasNoInterveningEffect depC cxF9 .read 4 5 = some true ∧
    dseTargets cxF9 4 5 = (4, 3) ∧
    regionPathOf cxF9 4 ≠ regionPathOf cxF9 3 :=
  ⟨rfl, rfl, by decide, rfl, rfl, rfl, rfl, by decide⟩

/-- C9 (amended).  A store `A` is scheduled for erasure (as its effective
target) iff the first store `B` in the user list satisfies: `B` distinct from
`A`, equivalent access to the same memref, the effective targets of `A` and
`B` (computed by `dseTargets`: `A` is replaced by its enclosing single-branch
conditional when it is the sole operation inside it and that conditional's
region chain is an ancestor of `B`'s; `B` is replaced by its enclosing
conditional when `A`'s parent is a conditional and `B`'s is recognizably the
same conditional) lie in the same region, `B`'s target post-dominates `A`'s
target, and no read effect intervenes between `A`'s target and `B`; the
search stops at the first such `B`. -/
theorem findUnusedStore_characterisation (dep : DepOracle) (f : Func)
    (writeAUid sv smem : Nat) (sidx : List AEx) (opsE memE : List Nat)
    (hstore : getOp? f writeAUid = some (.store writeAUid sv smem sidx)) :
    ((findUnusedStore dep f writeAUid opsE memE).1 =
      (match (usersOf f smem).find? (dseCond dep f (.store writeAUid sv smem sidx)) with
       | some b => opsE ++ [(dseTargets f writeAUid b).1]
       | none => opsE)) ∧
    (∀ u, dseCond dep f (.store writeAUid sv smem sidx) u = true ↔
      ∃ bv bidx, getOp? f u = some (.store u bv smem bidx) ∧
        u ≠ writeAUid ∧
        accessEq ⟨u, smem, bidx⟩ ⟨writeAUid, smem, sidx⟩ = true ∧
        regionPathOf f (dseTargets f writeAUid u).1 =
          regionPathOf f (dseTargets f writeAUid u).2 ∧
        postDominates f (dseTargets f writeAUid u).2 (dseTargets f writeAUid u).1 =
          true ∧
        hasNoInterveningEffect dep f .read (dseTargets f writeAUid u).1 u =
          some true) := by
  constructor
  · unfold findUnusedStore
    rw [hstore]
  · intro u
    unfold dseCond
    cases hg : getOp? f u with
    | none =>
      dsimp only
      exact iff_of_false (by simp) (by rintro ⟨bv, bidx, h, _⟩; simp at h)
    | some op =>
      cases op with
      | store w bv m i =>
        have hw : w = u := getOp?_uid f u _ hg
        subst hw
        dsimp only [Op.accessOf, Op.uid]
        constructor
        · intro h
          simp only [Bool.and_eq_true] at h
          obtain ⟨⟨hne, hacc⟩, ⟨hr1, hr2⟩, hr3⟩ := h
          have hm : m = smem := by
            unfold accessEq at hacc
            dsimp only at hacc
            rw [Bool.and_eq_true, beq_iff_eq, beq_iff_eq] at hacc
            exact hacc.1
          subst hm
          exact ⟨bv, i, rfl, by simpa using hne, hacc, by simpa using hr1, hr2,
            by simpa using hr3⟩
        · rintro ⟨bv', bidx', heq, hne, hacc, hr1, hr2, hr3⟩
          have heq' := Option.some.inj heq
          injection heq' with e1 e2 e3 e4
          subst e2
          subst e3
          subst e4
          simp only [Bool.and_eq_true]
          exact ⟨⟨by simpa using hne, hacc⟩, ⟨by simpa using hr1, hr2⟩,
            by simpa using hr3⟩
      | load a1 a2 a3 a4 a5 =>
        exact iff_of_false (by simp) (by rintro ⟨bv, bidx, h, _⟩; simp at h)
      | alloc a1 a2 =>
        exact iff_of_false (by simp) (by rintro ⟨bv, bidx, h, _⟩; simp at h)
      | dealloc a1 a2 =>
        exact iff_of_false (by simp) (by rintro ⟨bv, bidx, h, _⟩; simp at h)
      | konst a1 a2 a3 a4 =>
        exact iff_of_false (by simp) (by rintro ⟨bv, bidx, h, _⟩; simp at h)
      | select a1 a2 a3 a4 a5 a6 =>
        exact iff_of_false (by simp) (by rintro ⟨bv, bidx, h, _⟩; simp at h)
      | affineIf a1 a2 a3 a4 a5 =>
        exact iff_of_false (by simp) (by rintro ⟨bv, bidx, h, _⟩; simp at h)
      | affineFor a1 a2 a3 a4 a5 =>
        exact iff_of_false (by simp) (by rintro ⟨bv, bidx, h, _⟩; simp at h)
      | effOp a1 a2 =>
        exact iff_of_false (by simp) (by rintro ⟨bv, bidx, h, _⟩; simp at h)
      | unknownOp a1 =>
        exact iff_of_false (by simp) (by rintro ⟨bv, bidx, h, _⟩; simp at h)

/-- Witness for the amended C9 on `cxF9`: no user satisfies the code's
condition (the region check fails for store 5), so nothing is scheduled. -/
theorem findUnusedStore_characterisation_witness :
    (findUnusedStore depC cxF9 4 [] []).1 =
      (match (usersOf cxF9 100).find? (dseCond depC cxF9 (.store 4 102 100 [.cst 0])) with
       | some b => ([] : List Nat) ++ [(dseTargets cxF9 4 b).1]
       | none => ([] : List Nat)) ∧
    (dseCond depC cxF9 (.store 4 102 100 [.cst 0]) 5 = true ↔
      ∃ bv bidx, getOp? cxF9 5 = some (.store 5 bv 100 bidx) ∧
        (5 : Nat) ≠ 4 ∧
        accessEq ⟨5, 100, bidx⟩ ⟨4, 100, [.cst 0]⟩ = true ∧
        regionPathOf cxF9 (dseTargets cxF9 4 5).1 =
          regionPathOf cxF9 (dseTargets cxF9 4 5).2 ∧
        postDominates cxF9 (dseTargets cxF9 4 5).2 (dseTargets cxF9 4 5).1 = true ∧
        hasNoInterveningEffect depC cxF9 .read (dseTargets cxF9 4 5).1 5 =
          some true) :=
  ⟨(findUnusedStore_characterisation depC cxF9 4 102 100 [.cst 0] [] [] rfl).1,
    (findUnusedStore_characterisation depC cxF9 4 102 100 [.cst 0] [] [] rfl).2 5⟩

/-- Witness for C4 at a concrete input: the intervening store of `cxF3`
against its own load (same memref, zero surrounding loops, so the range is
the single depth 1). -/
theorem checkOperation_affine_dependence_range_witness :
    checkOperation depC cxF3 .write 2 (.load 4 105 100 [.cst 0] .scalar) 100
        (.store 2 102 100 [.cst 0]) = true ↔
      ∃ d, numCommonSurroundingLoops cxF3 2 4 + 1 ≤ d ∧
        d ≤ numCommonSurroundingLoops cxF3 2 4 + 1 ∧
        depC ⟨2, 100, [.cst 0]⟩ ⟨4, 100, [.cst 0]⟩ d ≠ .noDependence :=
  checkOperation_affine_dependence_range depC cxF3 .write 2
    (.load 4 105 100 [.cst 0] .scalar) (.store 2 102 100 [.cst 0]) 100
    ⟨2, 100, [.cst 0]⟩ ⟨4, 100, [.cst 0]⟩ rfl rfl rfl rfl


/-! ### Chain-structure lemmas for the loop-perfection step -/

theorem isSingletonFor_cons (x : Op) (xs : List Op) (hx : x.isFor = false) :
    isSingletonFor (x :: xs) = false := by
  cases xs with
  | nil => cases x <;> first | rfl | simp [Op.isFor] at hx
  | cons y ys => cases x <;> rfl

theorem isSingletonFor_cons_cons (x y : Op) (ys : List Op) :
    isSingletonFor (x :: y :: ys) = false := by
  cases x <;> rfl

/-- A block with a non-loop operation somewhere in it is not a chain link. -/
theorem isSingletonFor_append_mid (xs : List Op) (i : Op) (hi : i.isFor = false)
    (b : List Op) : isSingletonFor (xs ++ i :: b) = false := by
  cases xs with
  | nil => exact isSingletonFor_cons i b hi
  | cons a as =>
    rw [List.cons_append]
    cases h : as ++ i :: b with
    | nil => exact absurd h (by simp)
    | cons y ys => exact isSingletonFor_cons_cons a y ys

theorem isSingletonFor_shape (b : List Op) (hb : isSingletonFor b = true) :
    ∃ u2 iv2 lb2 ub2 b2, b = [Op.affineFor u2 iv2 lb2 ub2 b2] := by
  cases b with
  | nil => simp [isSingletonFor] at hb
  | cons x xs =>
    cases xs with
    | cons y ys => simp [isSingletonFor_cons_cons] at hb
    | nil =>
      cases x
      case affineFor u2 iv2 lb2 ub2 b2 => exact ⟨u2, iv2, lb2, ub2, b2, rfl⟩
      all_goals simp [isSingletonFor] at hb

/-- The chain-link equation of `setInnermost`. -/
theorem setInnermost_chain (g : List Op → List Op) (u iv : Nat) (lb ub : Int)
    (u2 iv2 : Nat) (lb2 ub2 : Int) (b2 : List Op) :
    setInnermost g (.affineFor u iv lb ub [.affineFor u2 iv2 lb2 ub2 b2]) =
      .affineFor u iv lb ub [setInnermost g (.affineFor u2 iv2 lb2 ub2 b2)] := by
  simp only [setInnermost]

/-- The terminal equation of `setInnermost`. -/
theorem setInnermost_default (g : List Op → List Op) (u iv : Nat) (lb ub : Int)
    (b : List Op) (hb : isSingletonFor b = false) :
    setInnermost g (.affineFor u iv lb ub b) = .affineFor u iv lb ub (g b) := by
  cases b with
  | nil => simp only [setInnermost]
  | cons x xs =>
    cases xs with
    | cons y ys => cases x <;> simp only [setInnermost]
    | nil =>
      cases x
      case affineFor a1 a2 a3 a4 a5 => exact absurd hb (by simp [isSingletonFor])
      all_goals simp only [setInnermost]

/-- `setInnermost` preserves the loop header. -/
theorem setInnermost_for_shape (g : List Op → List Op) (u iv : Nat)
    (lb ub : Int) (b : List Op) :
    ∃ b2, setInnermost g (.affineFor u iv lb ub b) = .affineFor u iv lb ub b2 := by
  by_cases hb : isSingletonFor b = true
  · obtain ⟨u2, iv2, lb2, ub2, b2, rfl⟩ := isSingletonFor_shape b hb
    exact ⟨[setInnermost g (.affineFor u2 iv2 lb2 ub2 b2)],
      setInnermost_chain g u iv lb ub u2 iv2 lb2 ub2 b2⟩
  · exact ⟨g b, setInnermost_default g u iv lb ub b (by simpa using hb)⟩

theorem innermostBodyOf_chain (u iv : Nat) (lb ub : Int) (u2 iv2 : Nat)
    (lb2 ub2 : Int) (b2 : List Op) :
    innermostBodyOf (.affineFor u iv lb ub [.affineFor u2 iv2 lb2 ub2 b2]) =
      innermostBodyOf (.affineFor u2 iv2 lb2 ub2 b2) := by
  simp only [innermostBodyOf]

/-- On a non-link body the innermost body is the body itself. -/
theorem innermostBodyOf_non_chain (b : List Op) (hb : isSingletonFor b = false)
    (u iv : Nat) (lb ub : Int) :
    innermostBodyOf (.affineFor u iv lb ub b) = b := by
  cases b with
  | nil => simp only [innermostBodyOf]
  | cons x xs =>
    cases xs with
    | cons y ys => cases x <;> simp only [innermostBodyOf]
    | nil =>
      cases x
      case affineFor a1 a2 a3 a4 a5 => exact absurd hb (by simp [isSingletonFor])
      all_goals simp only [innermostBodyOf]

/-- `setInnermost` rewrites exactly the innermost body, provided the rewrite
never produces a chain link. -/
theorem innermostBodyOf_setInnermost (g : List Op → List Op)
    (hg : ∀ b, isSingletonFor (g b) = false) :
    (u iv : Nat) → (lb ub : Int) → (body : List Op) →
      innermostBodyOf (setInnermost g (.affineFor u iv lb ub body)) =
        g (innermostBodyOf (.affineFor u iv lb ub body))
  | u, iv, lb, ub, [Op.affineFor u2 iv2 lb2 ub2 b2] => by
    have IH := innermostBodyOf_setInnermost g hg u2 iv2 lb2 ub2 b2
    rw [setInnermost_chain]
    obtain ⟨b3, hb3⟩ := setInnermost_for_shape g u2 iv2 lb2 ub2 b2
    rw [hb3, innermostBodyOf_chain, ← hb3, IH, innermostBodyOf_chain]
  | u, iv, lb, ub, [] => by
    rw [setInnermost_default g u iv lb ub [] (by rfl),
      innermostBodyOf_non_chain _ (hg _), innermostBodyOf_non_chain _ (by rfl)]
  | u, iv, lb, ub, [Op.load a1 a2 a3 a4 a5] => by
    rw [setInnermost_default g u iv lb ub _ (by rfl),
      innermostBodyOf_non_chain _ (hg _), innermostBodyOf_non_chain _ (by rfl)]
  | u, iv, lb, ub, [Op.store a1 a2 a3 a4] => by
    rw [setInnermost_default g u iv lb ub _ (by rfl),
      innermostBodyOf_non_chain _ (hg _), innermostBodyOf_non_chain _ (by rfl)]
  | u, iv, lb, ub, [Op.alloc a1 a2] => by
    rw [setInnermost_default g u iv lb ub _ (by rfl),
      innermostBodyOf_non_chain _ (hg _), innermostBodyOf_non_chain _ (by rfl)]
  | u, iv, lb, ub, [Op.dealloc a1 a2] => by
    rw [setInnermost_default g u iv lb ub _ (by rfl),
      innermostBodyOf_non_chain _ (hg _), innermostBodyOf_non_chain _ (by rfl)]
  | u, iv, lb, ub, [Op.konst a1 a2 a3 a4] => by
    rw [setInnermost_default g u iv lb ub _ (by rfl),
      innermostBodyOf_non_chain _ (hg _), innermostBodyOf_non_chain _ (by rfl)]
  | u, iv, lb, ub, [Op.select a1 a2 a3 a4 a5 a6] => by
    rw [setInnermost_default g u iv lb ub _ (by rfl),
      innermostBodyOf_non_chain _ (hg _), innermostBodyOf_non_chain _ (by rfl)]
  | u, iv, lb, ub, [Op.affineIf a1 a2 a3 a4 a5] => by
    rw [setInnermost_default g u iv lb ub _ (by rfl),
      innermostBodyOf_non_chain _ (hg _), innermostBodyOf_non_chain _ (by rfl)]
  | u, iv, lb, ub, [Op.effOp a1 a2] => by
    rw [setInnermost_default g u iv lb ub _ (by rfl),
      innermostBodyOf_non_chain _ (hg _), innermostBodyOf_non_chain _ (by rfl)]
  | u, iv, lb, ub, [Op.unknownOp a1] => by
    rw [setInnermost_default g u iv lb ub _ (by rfl),
      innermostBodyOf_non_chain _ (hg _), innermostBodyOf_non_chain _ (by rfl)]
  | u, iv, lb, ub, x :: y :: ys => by
    have hb2 := isSingletonFor_cons_cons x y ys
    rw [setInnermost_default g u iv lb ub _ hb2,
      innermostBodyOf_non_chain _ (hg _), innermostBodyOf_non_chain _ hb2]


/-! ### Relocation lemmas for the loop-perfection step -/

theorem takeWhile_append_stop (p : Op → Bool) (front : List Op) (x : Op)
    (rest : List Op) (hf : ∀ o ∈ front, p o = true) (hx : p x = false) :
    (front ++ x :: rest).takeWhile p = front := by
  induction front with
  | nil => simp [List.takeWhile_cons, hx]
  | cons a as ih =>
    have ha : p a = true := hf a (by simp)
    simp only [List.cons_append, List.takeWhile_cons, ha, if_true]
    rw [ih (fun o ho => hf o (by simp [ho]))]

/-- The front guard holds exactly when every collected loop's induction
variable equals its constant lower bound. -/
theorem evalCondSet_frontCond (st : St) :
    (loops : List LoopInfo) →
    (∀ q ∈ loops, (st.vals.lookup q.iv).isSome = true) →
    (evalCondSet st (frontCond loops) = some true ↔
      ∀ q ∈ loops, st.vals.lookup q.iv = some (q.lb))
  | [], _ => by simp [evalCondSet, frontCond, evalConstraints]
  | lpi :: rest, hdef => by
    obtain ⟨v, hv⟩ := Option.isSome_iff_exists.mp (hdef lpi (by simp))
    have IH := evalCondSet_frontCond st rest (fun q hq => hdef q (by simp [hq]))
    have hA : evalA st (AEx.sub (.var lpi.iv) (.cst lpi.lb)) = some (v - lpi.lb) := by
      simp [evalA, hv]
    show evalConstraints st ((AEx.sub (.var lpi.iv) (.cst lpi.lb), true) ::
      (frontCond rest).exprs) = some true ↔ _
    rw [evalConstraints, hA]
    rw [show evalCondSet st (frontCond rest) =
      evalConstraints st (frontCond rest).exprs from rfl] at IH
    cases hres : evalConstraints st (frontCond rest).exprs with
    | none =>
      rw [hres] at IH
      constructor
      · intro h
        simp at h
      · intro hall
        exfalso
        have h2 := IH.mpr (fun q hq => hall q (by simp [hq]))
        simp at h2
    | some b =>
      rw [hres] at IH
      constructor
      · intro h
        have h2 : (v - lpi.lb == 0) = true ∧ b = true := by
          simpa using h
        intro q hq
        rcases List.mem_cons.mp hq with hq1 | hq2
        · have h3 : v - lpi.lb = 0 := by simpa using h2.1
          rw [hq1, hv]
          congr 1
          omega
        · exact (IH.mp (by rw [h2.2])) q hq2
      · intro hall
        have hhead : v = lpi.lb := by
          have h4 := hall lpi (by simp)
          rw [hv] at h4
          exact Option.some.inj h4
        have hb : b = true :=
          Option.some.inj (IH.mpr (fun q hq => hall q (by simp [hq])))
        subst hb
        rw [hhead]
        simp

/-- The back guard holds exactly when every collected loop's induction
variable equals its constant upper bound minus one. -/
theorem evalCondSet_backCond (st : St) :
    (loops : List LoopInfo) →
    (∀ q ∈ loops, (st.vals.lookup q.iv).isSome = true) →
    (evalCondSet st (backCond loops) = some true ↔
      ∀ q ∈ loops, st.vals.lookup q.iv = some (q.ub - 1))
  | [], _ => by simp [evalCondSet, backCond, evalConstraints]
  | lpi :: rest, hdef => by
    obtain ⟨v, hv⟩ := Option.isSome_iff_exists.mp (hdef lpi (by simp))
    have IH := evalCondSet_backCond st rest (fun q hq => hdef q (by simp [hq]))
    have hA : evalA st (AEx.sub (.cst (lpi.ub - 1)) (.var lpi.iv)) = some (lpi.ub - 1 - v) := by
      simp [evalA, hv]
    show evalConstraints st ((AEx.sub (.cst (lpi.ub - 1)) (.var lpi.iv), true) ::
      (backCond rest).exprs) = some true ↔ _
    rw [evalConstraints, hA]
    rw [show evalCondSet st (backCond rest) =
      evalConstraints st (backCond rest).exprs from rfl] at IH
    cases hres : evalConstraints st (backCond rest).exprs with
    | none =>
      rw [hres] at IH
      constructor
      · intro h
        simp at h
      · intro hall
        exfalso
        have h2 := IH.mpr (fun q hq => hall q (by simp [hq]))
        simp at h2
    | some b =>
      rw [hres] at IH
      constructor
      · intro h
        have h2 : (lpi.ub - 1 - v == 0) = true ∧ b = true := by
          simpa using h
        intro q hq
        rcases List.mem_cons.mp hq with hq1 | hq2
        · have h3 : lpi.ub - 1 - v = 0 := by simpa using h2.1
          rw [hq1, hv]
          congr 1
          omega
        · exact (IH.mp (by rw [h2.2])) q hq2
      · intro hall
        have hhead : v = lpi.ub - 1 := by
          have h4 := hall lpi (by simp)
          rw [hv] at h4
          exact Option.some.inj h4
        have hb : b = true :=
          Option.some.inj (IH.mpr (fun q hq => hall q (by simp [hq])))
        subst hb
        rw [hhead]
        simp


/-- C10.  One relocation step of the loop-perfection pass: every relocated
operation around the inner loop that produces no results is placed inside a
newly created single-branch conditional in the innermost loop — at the front
under `frontCond` (each inner induction variable equals its constant lower
bound) for operations originally before the inner loop, at the back under
`backCond` (each inner induction variable equals its constant upper bound
minus one) for operations originally after it — while every relocated
operation with at least one result is moved immediately before the
corresponding conditional, unconditionally on the innermost path; the guards
hold exactly when the respective bound equations do. -/
theorem perfectStep_placement (loops : List LoopInfo) (innerInfo : LoopInfo)
    (u iv : Nat) (lb ub : Int) (front : List Op) (inner : Op) (back : List Op)
    (fresh : Nat) (u2 iv2 : Nat) (lb2 ub2 : Int) (b2 : List Op)
    (hlast : loops.getLast? = some innerInfo)
    (hinner : inner = .affineFor u2 iv2 lb2 ub2 b2)
    (hiu : u2 = innerInfo.uid)
    (hfront : ∀ o ∈ front, o.uid ≠ innerInfo.uid)
    (hback : ∀ o ∈ back, o.uid ≠ innerInfo.uid)
    (hfne : front ≠ []) (hbne : back ≠ []) :
    ∃ inner2,
      perfectStep loops (.affineFor u iv lb ub (front ++ inner :: back)) fresh =
        (.affineFor u iv lb ub [inner2], fresh + 2) ∧
      innermostBodyOf inner2 =
        front.filter Op.hasResults ++
        ((Op.affineIf fresh (frontCond loops)
            (front.filter fun o => !o.hasResults) [] false) ::
          innermostBodyOf inner) ++
        back.filter Op.hasResults ++
        [Op.affineIf (fresh + 1) (backCond loops)
          (back.filter fun o => !o.hasResults) [] false] ∧
      (∀ st : St, (∀ q ∈ loops, (st.vals.lookup q.iv).isSome = true) →
        ((evalCondSet st (frontCond loops) = some true ↔
            ∀ q ∈ loops, st.vals.lookup q.iv = some q.lb) ∧
          (evalCondSet st (backCond loops) = some true ↔
            ∀ q ∈ loops, st.vals.lookup q.iv = some (q.ub - 1)))) := by
  subst hinner
  subst hiu
  have hpredf : ∀ o ∈ front, (o.uid != innerInfo.uid) = true := fun o ho => by
    simpa [bne_iff_ne] using hfront o ho
  have hpredb : ∀ o ∈ back.reverse, (o.uid != innerInfo.uid) = true := fun o ho => by
    simpa [bne_iff_ne] using hback o (List.mem_reverse.mp ho)
  have hx : ((Op.affineFor innerInfo.uid iv2 lb2 ub2 b2).uid != innerInfo.uid) =
      false := by
    simp [Op.uid]
  have hfr : (front ++ (Op.affineFor innerInfo.uid iv2 lb2 ub2 b2) :: back).takeWhile
      (fun o => o.uid != innerInfo.uid) = front :=
    takeWhile_append_stop _ front _ back hpredf hx
  have hrev : (front ++ (Op.affineFor innerInfo.uid iv2 lb2 ub2 b2) :: back).reverse =
      back.reverse ++ (Op.affineFor innerInfo.uid iv2 lb2 ub2 b2) :: front.reverse := by
    simp
  have hbk : ((front ++ (Op.affineFor innerInfo.uid iv2 lb2 ub2 b2) ::
        back).reverse.takeWhile (fun o => o.uid != innerInfo.uid)).reverse = back := by
    rw [hrev, takeWhile_append_stop _ back.reverse _ front.reverse hpredb hx]
    simp
  have hlen : (front ++ (Op.affineFor innerInfo.uid iv2 lb2 ub2 b2) :: back).length -
      front.length - back.length = 1 := by
    simp [List.length_append]
  have hmid : ((front ++ (Op.affineFor innerInfo.uid iv2 lb2 ub2 b2) ::
        back).drop front.length).take
        ((front ++ (Op.affineFor innerInfo.uid iv2 lb2 ub2 b2) :: back).length -
          front.length - back.length) = [Op.affineFor innerInfo.uid iv2 lb2 ub2 b2] := by
    rw [hlen, List.drop_left]
    rfl
  have hfe : front.isEmpty = false := by
    cases front with
    | nil => exact absurd rfl hfne
    | cons a as => rfl
  have hbe : back.isEmpty = false := by
    cases back with
    | nil => exact absurd rfl hbne
    | cons a as => rfl
  unfold perfectStep
  rw [hlast]
  dsimp only
  rw [hfr, hbk, hmid, hfe, hbe]
  simp only [Bool.false_eq_true, if_false, List.map_cons, List.map_nil]
  refine ⟨_, rfl, ?_, fun st hst =>
    ⟨evalCondSet_frontCond st loops hst, evalCondSet_backCond st loops hst⟩⟩
  have hg1 : ∀ b, isSingletonFor
      ((front.filter Op.hasResults ++
        [Op.affineIf fresh (frontCond loops)
          (front.filter fun o => !o.hasResults) [] false]) ++ b) = false := by
    intro b
    rw [List.append_assoc, List.singleton_append]
    exact isSingletonFor_append_mid _ _ (by rfl) b
  have hg2 : ∀ b, isSingletonFor
      ((b ++ back.filter Op.hasResults) ++
        [Op.affineIf (fresh + 1) (backCond loops)
          (back.filter fun o => !o.hasResults) [] false]) = false := by
    intro b
    exact isSingletonFor_append_mid _ _ (by rfl) []
  obtain ⟨bmid, hbmid⟩ := setInnermost_for_shape
    (fun ib => front.filter Op.hasResults ++
      [Op.affineIf fresh (frontCond loops)
        (front.filter fun o => !o.hasResults) [] false] ++ ib)
    innerInfo.uid iv2 lb2 ub2 b2
  rw [hbmid]
  rw [innermostBodyOf_setInnermost _ (fun b => hg2 b) innerInfo.uid iv2 lb2 ub2 bmid]
  rw [← hbmid]
  rw [innermostBodyOf_setInnermost _ (fun b => hg1 b) innerInfo.uid iv2 lb2 ub2 b2]
  simp [List.append_assoc]


/-- Witness for C10 on the two-level nest `cxLoop`: the constant (which has a
result) lands before the front conditional, the two stores (no results) land
inside the front and back conditionals respectively. -/
theorem perfectStep_placement_witness :
    ∃ inner2,
      perfectStep [⟨4, 111, 0, 3⟩] cxLoop 50 = (.affineFor 1 110 0 4 [inner2], 52) ∧
      innermostBodyOf inner2 =
        [Op.konst 2 120 7 .scalar] ++
        ((Op.affineIf 50 (frontCond [⟨4, 111, 0, 3⟩])
            [Op.store 3 120 100 [.var 110]] [] false) ::
          [Op.store 5 120 100 [.var 111]]) ++
        ([] : List Op) ++
        [Op.affineIf 51 (backCond [⟨4, 111, 0, 3⟩])
          [Op.store 6 120 100 [.add (.var 110) (.cst 1)]] [] false] ∧
      (∀ st : St,
        (∀ q ∈ [(⟨4, 111, 0, 3⟩ : LoopInfo)], (st.vals.lookup q.iv).isSome = true) →
        ((evalCondSet st (frontCond [⟨4, 111, 0, 3⟩]) = some true ↔
            ∀ q ∈ [(⟨4, 111, 0, 3⟩ : LoopInfo)],
              st.vals.lookup q.iv = some q.lb) ∧
          (evalCondSet st (backCond [⟨4, 111, 0, 3⟩]) = some true ↔
            ∀ q ∈ [(⟨4, 111, 0, 3⟩ : LoopInfo)],
              st.vals.lookup q.iv = some (q.ub - 1)))) := by
  have h := perfectStep_placement [⟨4, 111, 0, 3⟩] ⟨4, 111, 0, 3⟩ 1 110 0 4
    [.konst 2 120 7 .scalar, .store 3 120 100 [.var 110]]
    (.affineFor 4 111 0 3 [.store 5 120 100 [.var 111]])
    [.store 6 120 100 [.add (.var 110) (.cst 1)]]
    50 4 111 0 3 [.store 5 120 100 [.var 111]]
    rfl rfl rfl (by decide) (by decide)
    (by exact List.cons_ne_nil _ _) (by exact List.cons_ne_nil _ _)
  simpa [cxLoop, innermostBodyOf, Op.hasResults, Op.results] using h

end StoreForward
